import Mathlib

/-!
Verification of the Lumina-Layers 3MF transformation core.

The development shallowly embeds the two source modules
`src/utils/helpers.py` and `src/utils/add_3mf_colors.py`:

* the textual name-fix / assembly-synthesis pass of `safe_fix_3mf_names`
  is embedded as functions over `Text := List Char`, mirroring the
  regex scans of the source character by character;
* the structural color pipeline (`get_objects_info`,
  `insert_colorgroups`, `add_triangle_colors`, `add_build_materials`,
  `add_colors_to_xml_string`) is embedded over an XML element tree;
* the archive-level orchestration of `safe_fix_3mf_names` is embedded
  over association lists of entry name to entry bytes, with Python
  exceptions modelled by `Except`.
-/

/-- Character lists stand for the Python strings the source manipulates. -/
abbrev Text := List Char

/-- Coerce a Lean string literal to the character-list representation. -/
def lit (s : String) : Text := s.toList

/-- Python `\s` on the ASCII range: the whitespace class used by the
`re` patterns in `safe_fix_3mf_names`. -/
def isPySpace (c : Char) : Bool :=
  c = ' ' || c = '\t' || c = '\n' || c = '\r' || c = '\x0b' || c = '\x0c'

/-- ASCII lower-casing, used to embed `re.IGNORECASE`. -/
def lowerAscii (c : Char) : Char :=
  if 'A' ≤ c ∧ c ≤ 'Z' then Char.ofNat (c.toNat + 32) else c

/-- Case-insensitive character comparison (ASCII), for `re.IGNORECASE`. -/
def ciEq (a b : Char) : Bool := lowerAscii a = lowerAscii b

/-- Case-insensitive "the first list is a prefix of the second". -/
def startsWithCI : Text → Text → Bool
  | [], _ => true
  | _ :: _, [] => false
  | p :: ps, c :: cs => ciEq p c && startsWithCI ps cs

/-- Python `\w` on the ASCII range (letters, digits, underscore). -/
def isWordChar (c : Char) : Bool := c.isAlpha || c.isDigit || c = '_'

/-- Index of the first character satisfying a predicate. -/
def findCharIdx (p : Char → Bool) : Text → Option Nat
  | [] => none
  | c :: cs => if p c then some 0 else (findCharIdx p cs).map (· + 1)

/-- Index of the first occurrence of a pattern as a contiguous substring,
embedding Python `str.find` / leftmost regex literal search. -/
def findSubstr (pat : Text) : Text → Option Nat
  | [] => if pat.isEmpty then some 0 else none
  | s@(_ :: cs) => if pat.isPrefixOf s then some 0 else (findSubstr pat cs).map (· + 1)

/-- Whether a pattern occurs as a contiguous substring, embedding
Python `in` on strings. -/
def containsSub (pat s : Text) : Bool := (findSubstr pat s).isSome

/-- Whether the first list is a suffix of the second, embedding
Python `str.endswith`. -/
def endsWithText (suf s : Text) : Bool := suf.isSuffixOf s

theorem findCharIdx_lt_length {p : Char → Bool} {s : Text} {k : Nat}
    (h : findCharIdx p s = some k) : k < s.length := by
  induction s generalizing k with
  | nil => simp [findCharIdx] at h
  | cons c cs ih =>
    by_cases hc : p c
    · simp [findCharIdx, hc] at h
      simp [← h]
    · simp [findCharIdx, hc, Option.map_eq_some'] at h
      obtain ⟨k0, hk0, rfl⟩ := h
      have := ih hk0
      simp
      omega

theorem findSubstr_spec {pat s : Text} {r : Nat} (h : findSubstr pat s = some r) :
    r + pat.length ≤ s.length ∧ s = s.take r ++ pat ++ s.drop (r + pat.length) := by
  induction s generalizing r with
  | nil =>
    by_cases hp : pat.isEmpty
    · simp [findSubstr, hp] at h
      subst h
      simp [List.isEmpty_iff.mp hp]
    · simp [findSubstr, hp] at h
  | cons c cs ih =>
    by_cases hpre : pat.isPrefixOf (c :: cs)
    · simp [findSubstr, hpre] at h
      subst h
      have hpre2 : pat <+: c :: cs := by
        exact List.isPrefixOf_iff_prefix.mp hpre
      obtain ⟨t, ht⟩ := hpre2
      constructor
      · have : pat.length + t.length = (c :: cs).length := by
          rw [← ht]; simp
        omega
      · simp only [List.take_zero, List.nil_append, Nat.zero_add]
        rw [← ht]
        simp
    · simp [findSubstr, hpre, Option.map_eq_some'] at h
      obtain ⟨r0, hr0, rfl⟩ := h
      obtain ⟨hlen, heq⟩ := ih hr0
      constructor
      · simpa using by omega
      · have : (c :: cs).take (r0 + 1) = c :: cs.take r0 := by simp
        rw [this]
        have hdrop : (c :: cs).drop (r0 + 1 + pat.length) = cs.drop (r0 + pat.length) := by
          simp [Nat.add_right_comm r0 1 pat.length]
        rw [hdrop]
        simpa using congrArg (c :: ·) heq

/-!
## Textual name-fix pass of `safe_fix_3mf_names` (helpers.py lines 49-108)

The source scans the raw model text with
`re.compile(r'<object\s+([^>]*)>', re.IGNORECASE)`, keeps the matches
whose attribute text contains `\bid="(\d+)"`, renames them in reverse
position order, and optionally splices in an assembly object and a
fresh build section.
-/

/-- One regex match kept by `safe_fix_3mf_names`: the entry
`(match.start(), match.end(), match.group(0), id)` of `obj_info`. -/
structure ObjMatch where
  start : Nat
  stop : Nat
  tag : Text
  objId : Text
  deriving DecidableEq, Repr

/-- Literal `<object` of the object-tag pattern. -/
def objectLit : Text := lit "<object"

/-- Attempt the pattern `<object\s+([^>]*)>` (case-insensitive) at the
head of the text.  On success return the match length together with
group 1 (the attribute text after the leading whitespace run). -/
def matchObjAt (s : Text) : Option (Nat × Text) :=
  if startsWithCI objectLit s then
    match s.drop 7 with
    | [] => none
    | c :: _ =>
      if isPySpace c then
        match findCharIdx (fun d => d = '>') (s.drop 7) with
        | some k => some (7 + k + 1, ((s.drop 7).take k).dropWhile isPySpace)
        | none => none
      else none
  else none

/-- Attempt the pattern `\bid="(\d+)"` at the current scan position:
given the word-boundary status, match the literal `id="`, then a
non-empty maximal digit run, then the closing quote. -/
def idAttemptAt (boundary : Bool) (s : Text) : Option Text :=
  if boundary && (lit "id=\"").isPrefixOf s then
    let ds := (s.drop 4).takeWhile Char.isDigit
    if ds ≠ [] ∧ (s.drop (4 + ds.length)).head? = some '"' then some ds else none
  else none

/-- Search the attribute text for `\bid="(\d+)"`, returning the digit
group of the leftmost occurrence.  The first argument is the word
boundary status at the scan position: true at the start of the text,
and after any non-word character. -/
def searchId : Bool → Text → Option Text
  | _, [] => none
  | boundary, c :: cs =>
    match idAttemptAt boundary (c :: cs) with
    | some ds => some ds
    | none => searchId (!isWordChar c) cs

/-- Fuel-driven embedding of `object_pattern.finditer` followed by the
id filter: non-overlapping leftmost matches, each recorded only when
its attribute text contains a numeric `id`.  One unit of fuel is spent
per scan step, so fuel equal to the text length is always enough. -/
def scanAux : Nat → Text → Nat → List ObjMatch
  | 0, _, _ => []
  | _ + 1, [], _ => []
  | fuel + 1, s@(_ :: rest), off =>
    match matchObjAt s with
    | some (len, attrs) =>
      let tail := scanAux fuel (s.drop len) (off + len)
      match searchId true attrs with
      | some ds => ⟨off, off + len, s.take len, ds⟩ :: tail
      | none => tail
    | none => scanAux fuel rest (off + 1)

/-- The `obj_info` list of `safe_fix_3mf_names`. -/
def scanObjects (content : Text) : List ObjMatch :=
  scanAux content.length content 0

/-- Remove every match of `\s+name="[^"]*"` from a tag, embedding the
`re.sub` of the rename step. -/
def subNameAttr : Nat → Text → Text
  | 0, s => s
  | _ + 1, [] => []
  | fuel + 1, c :: cs =>
    if isPySpace c then
      let rest := (c :: cs).dropWhile isPySpace
      if (lit "name=\"").isPrefixOf rest then
        match findCharIdx (fun d => d = '"') (rest.drop 6) with
        | some k => subNameAttr fuel (rest.drop (6 + k + 1))
        | none => c :: subNameAttr fuel cs
      else c :: subNameAttr fuel cs
    else c :: subNameAttr fuel cs

/-- Rewrite one object tag: drop the pre-existing `name` attributes and
splice `name="..."` in before the closing `>`. -/
def renameTag (tag : Text) (nm : Text) : Text :=
  let stripped := subNameAttr tag.length tag
  stripped.dropLast ++ (lit " name=\"" ++ nm ++ lit "\">")

/-- Pair every list entry with its forward position, starting at a
given index. -/
def withIdxFrom : Nat → List α → List (Nat × α)
  | _, [] => []
  | n, a :: as => (n, a) :: withIdxFrom (n + 1) as

/-- The replacement text the rename loop of `safe_fix_3mf_names`
produces for the match of forward rank `i`: the renamed tag when the
slot list covers rank `i`, the original tag otherwise. -/
def newTagFor (slots : List Text) (i : Nat) (m : ObjMatch) : Text :=
  match slots.get? i with
  | some nm => renameTag m.tag nm
  | none => m.tag

/-- The reverse-order rename loop of `safe_fix_3mf_names`: walk the
indexed matches in reverse position order and splice the renamed tag
into the content at the recorded offsets. -/
def applyRenames (slots : List Text) (ms : List (Nat × ObjMatch)) (content : Text) : Text :=
  ms.reverse.foldl
    (fun c p =>
      match slots.get? p.1 with
      | some _ => c.take p.2.start ++ newTagFor slots p.1 p.2 ++ c.drop p.2.stop
      | none => c)
    content

/-- Parse a digit string the way Python `int` does on `\d+` input. -/
def textToNat (t : Text) : Nat :=
  t.foldl (fun a c => 10 * a + (c.toNat - 48)) 0

/-- Decimal rendering of a natural number, embedding Python `str`. -/
def natToDecAux : Nat → Nat → Text
  | 0, _ => []
  | fuel + 1, n =>
    if n < 10 then [Nat.digitChar n]
    else natToDecAux fuel (n / 10) ++ [Nat.digitChar (n % 10)]

/-- Decimal rendering of a natural number, embedding Python `str`. -/
def natToDec (n : Nat) : Text := natToDecAux (n + 1) n

/-- One line of `components_xml`:
`      <component objectid="{oid}" />`. -/
def componentLine (oid : Text) : Text :=
  lit "      <component objectid=\"" ++ oid ++ lit "\" />"

/-- Python `sep.join(parts)`. -/
def joinWith (sep : Text) : List Text → Text
  | [] => []
  | [x] => x
  | x :: y :: ys => x ++ sep ++ joinWith sep (y :: ys)

/-- The `assembly_xml` f-string of `safe_fix_3mf_names`, with the
assembly id already rendered in decimal. -/
def assemblyXml (aid : Text) (ids : List Text) : Text :=
  lit "\n  <object id=\"" ++ aid ++ lit "\" type=\"model\" name=\"Lumina_Model\">\n    <components>\n"
    ++ joinWith (lit "\n") (ids.map componentLine)
    ++ lit "\n    </components>\n  </object>\n"

/-- The single-item replacement build section. -/
def newBuild (aid : Text) : Text :=
  lit "<build>\n    <item objectid=\"" ++ aid ++ lit "\" />\n  </build>"

/-- The match of `re.compile(r'<build>.*?</build>', re.DOTALL)`:
start of the first `<build>` literal and the end of the first
`</build>` literal after it. -/
def buildMatch (s : Text) : Option (Nat × Nat) :=
  match findSubstr (lit "<build>") s with
  | none => none
  | some b1 =>
    match findSubstr (lit "</build>") (s.drop (b1 + 7)) with
    | none => none
    | some k => some (b1, b1 + 7 + k + 8)

/-- Maximum of the numeric object ids, as computed by
`max(int(oid) for oid in object_ids)` (over a non-empty list). -/
def maxIdOf (ids : List Text) : Nat :=
  (ids.map textToNat).foldl Nat.max 0

/-- The `object_ids` list of `safe_fix_3mf_names`. -/
def objectIdsOf (content : Text) : List Text :=
  (scanObjects content).map ObjMatch.objId

/-- The content after the reverse-order rename loop. -/
def renamedContent (content : Text) (slots : List Text) : Text :=
  applyRenames slots (withIdxFrom 0 (scanObjects content)) content

/-- The assembly id `max(int(oid)) + 1` rendered in decimal. -/
def assemblyIdOf (content : Text) : Text :=
  natToDec (maxIdOf (objectIdsOf content) + 1)

/-- The renamed content with `assembly_xml` inserted before the first
`</resources>` literal (left unchanged when the literal is absent). -/
def assembledContent (content : Text) (slots : List Text) : Text :=
  let c1 := renamedContent content slots
  match findSubstr (lit "</resources>") c1 with
  | some r => c1.take r ++ assemblyXml (assemblyIdOf content) (objectIdsOf content) ++ c1.drop r
  | none => c1

/-- The whole content transformation of `safe_fix_3mf_names` before the
optional colorize stage: scan, reverse-order rename, optional assembly
insertion before the first `</resources>`, optional build rewrite. -/
def fixNamesContent (content : Text) (slots : List Text) (createAssembly : Bool) : Text :=
  if createAssembly = true ∧ 1 < (objectIdsOf content).length then
    let c2 := assembledContent content slots
    match buildMatch c2 with
    | some (b1, b2) => c2.take b1 ++ newBuild (assemblyIdOf content) ++ c2.drop b2
    | none => c2
  else renamedContent content slots

/-!
## Scanner invariants

The matches recorded by `scanAux` are in strictly increasing position
order, lie inside the scanned text, and each recorded tag is exactly
the slice of the text between its offsets.
-/

theorem matchObjAt_len {s : Text} {len : Nat} {attrs : Text}
    (h : matchObjAt s = some (len, attrs)) : 1 ≤ len ∧ len ≤ s.length := by
  unfold matchObjAt at h
  by_cases h1 : startsWithCI objectLit s = true
  · simp only [h1, if_true] at h
    cases hdrop : s.drop 7 with
    | nil => rw [hdrop] at h; simp at h
    | cons c cs =>
      rw [hdrop] at h
      by_cases h2 : isPySpace c = true
      · simp only [h2, if_true] at h
        cases hfind : findCharIdx (fun d => d = '>') (c :: cs) with
        | none => rw [hfind] at h; simp at h
        | some k =>
          rw [hfind] at h
          simp only [Option.some.injEq, Prod.mk.injEq] at h
          obtain ⟨hlen, _⟩ := h
          have hk := findCharIdx_lt_length hfind
          have hlen7 : (c :: cs).length = s.length - 7 := by
            rw [← hdrop]; simp
          have h7 : 7 < s.length := by
            have hpos : 0 < (c :: cs).length := by simp
            omega
          omega
      · simp [h2] at h
  · simp [h1] at h

/-- The per-match facts recorded by the scanner: position bounds and
the tag being the exact slice of the scanned text. -/
def MatchFacts (content : Text) (off : Nat) (m : ObjMatch) : Prop :=
  off ≤ m.start ∧ m.start < m.stop ∧ m.stop ≤ off + content.length ∧
    m.tag = (content.drop (m.start - off)).take (m.stop - m.start)

theorem scanAux_props : ∀ (fuel : Nat) (s : Text) (off : Nat),
    (∀ m ∈ scanAux fuel s off, MatchFacts s off m) ∧
      List.Chain' (fun a b => a.stop ≤ b.start) (scanAux fuel s off) := by
  intro fuel
  induction fuel with
  | zero => intro s off; simp [scanAux]
  | succ fuel ih =>
    intro s off
    match s with
    | [] => simp [scanAux]
    | c0 :: rest =>
      cases hm : matchObjAt (c0 :: rest) with
      | none =>
        obtain ⟨ihm, ihc⟩ := ih rest (off + 1)
        constructor
        · intro m hmem
          rw [scanAux, hm] at hmem
          obtain ⟨h1, h2, h3, h4⟩ := ihm m hmem
          refine ⟨by omega, h2, by simp; omega, ?_⟩
          have : rest.drop (m.start - (off + 1)) = (c0 :: rest).drop (m.start - off) := by
            have hs : m.start - off = (m.start - (off + 1)) + 1 := by omega
            rw [hs]
            simp
          rw [h4, this]
        · rw [scanAux, hm]
          exact ihc
      | some p =>
        obtain ⟨len, attrs⟩ := p
        obtain ⟨hl1, hl2⟩ := matchObjAt_len hm
        obtain ⟨ihm, ihc⟩ := ih ((c0 :: rest).drop len) (off + len)
        have htrans : ∀ m, MatchFacts ((c0 :: rest).drop len) (off + len) m →
            MatchFacts (c0 :: rest) off m := by
          intro m hf
          obtain ⟨h1, h2, h3, h4⟩ := hf
          refine ⟨by omega, h2, ?_, ?_⟩
          · have : ((c0 :: rest).drop len).length = (c0 :: rest).length - len := by simp
            omega
          · have : ((c0 :: rest).drop len).drop (m.start - (off + len)) =
                (c0 :: rest).drop (m.start - off) := by
              rw [List.drop_drop]
              congr 1
              omega
            rw [h4, this]
        have hfirst : ∀ m ∈ scanAux fuel ((c0 :: rest).drop len) (off + len),
            off + len ≤ m.start := fun m hmem => (ihm m hmem).1
        cases hid : searchId true attrs with
        | none =>
          constructor
          · intro m hmem
            rw [scanAux] at hmem
            simp only [hm, hid] at hmem
            exact htrans m (ihm m hmem)
          · rw [scanAux]
            simp only [hm, hid]
            exact ihc
        | some ds =>
          constructor
          · intro m hmem
            rw [scanAux] at hmem
            simp only [hm, hid] at hmem
            simp only [List.mem_cons] at hmem
            cases hmem with
            | inl he =>
              subst he
              refine ⟨Nat.le_refl _, ?_, ?_, ?_⟩
              · show off < off + len
                omega
              · show off + len ≤ off + (c0 :: rest).length
                omega
              · show (c0 :: rest).take len =
                  ((c0 :: rest).drop (off - off)).take (off + len - off)
                simp
            | inr ht => exact htrans m (ihm m ht)
          · rw [scanAux]
            simp only [hm, hid]
            rw [List.chain'_cons']
            refine ⟨?_, ihc⟩
            intro y hy
            have : y ∈ scanAux fuel ((c0 :: rest).drop len) (off + len) :=
              List.mem_of_mem_head? hy
            simpa using hfirst y this

theorem scanObjects_props (content : Text) :
    (∀ m ∈ scanObjects content, MatchFacts content 0 m) ∧
      List.Chain' (fun a b => a.stop ≤ b.start) (scanObjects content) := by
  simpa [scanObjects] using scanAux_props content.length content 0

/-!
## Forward-rank reading of the reverse-order rename loop (claim C5)

`renameFwd` is the specification-side reading of the rename step: walk
the matches in forward order, keep the gaps between them verbatim, and
replace the match of forward rank `i` by `newTagFor slots i`.  The
theorems below prove the source's reverse-position loop equal to it.
-/

/-- Specification-side forward reading of the rename pass: emit the gap
before each match, then the (possibly renamed) tag, then continue after
the match. -/
def renameFwd (slots : List Text) (content : Text) : Nat → List (Nat × ObjMatch) → Text
  | pos, [] => content.drop pos
  | pos, (i, m) :: rest =>
    (content.take m.start).drop pos ++ newTagFor slots i m ++
      renameFwd slots content m.stop rest

theorem slice_recompose {content : Text} {a b : Nat} (hab : a ≤ b) :
    content.take a ++ (content.drop a).take (b - a) ++ content.drop b = content := by
  have h1 : (content.drop a).drop (b - a) = content.drop b := by
    rw [List.drop_drop]
    congr 1
    omega
  calc content.take a ++ (content.drop a).take (b - a) ++ content.drop b
      = content.take a ++
        ((content.drop a).take (b - a) ++ (content.drop a).drop (b - a)) := by
        rw [h1, List.append_assoc]
    _ = content.take a ++ content.drop a := by rw [List.take_append_drop]
    _ = content := List.take_append_drop a content

theorem drop_slice_decompose {content : Text} {pos a b : Nat}
    (hpa : pos ≤ a) (hab : a ≤ b) (hb : b ≤ content.length) :
    content.drop pos =
      (content.take a).drop pos ++ (content.drop a).take (b - a) ++ content.drop b := by
  have hlen : pos ≤ (content.take a).length := by
    simp only [List.length_take]
    omega
  conv_lhs => rw [← @slice_recompose content a b hab]
  rw [List.append_assoc, List.drop_append_of_le_length hlen, List.append_assoc]

theorem take_of_splice {content : Text} {a b k : Nat} (rep : Text)
    (hk : k ≤ a) (ha : a ≤ content.length) :
    (content.take a ++ rep ++ content.drop b).take k = content.take k := by
  have h1 : k ≤ (content.take a ++ rep).length := by
    simp only [List.length_append, List.length_take]
    omega
  have h2 : k ≤ (content.take a).length := by
    simp only [List.length_take]
    omega
  rw [List.take_append_of_le_length h1, List.take_append_of_le_length h2,
    List.take_take, Nat.min_eq_left hk]

theorem drop_of_splice {content : Text} {a b pos : Nat} (rep : Text)
    (hpos : pos ≤ a) (ha : a ≤ content.length) :
    (content.take a ++ rep ++ content.drop b).drop pos =
      (content.take a).drop pos ++ rep ++ content.drop b := by
  have h1 : pos ≤ (content.take a).length := by
    simp only [List.length_take]
    omega
  have h2 : pos ≤ (content.take a ++ rep).length := by
    simp only [List.length_append]
    omega
  rw [List.drop_append_of_le_length h2, List.drop_append_of_le_length h1]

theorem slice_of_splice {content : Text} {a b s e : Nat} (rep : Text)
    (hse : s ≤ e) (hea : e ≤ a) (ha : a ≤ content.length) :
    ((content.take a ++ rep ++ content.drop b).drop s).take (e - s) =
      (content.drop s).take (e - s) := by
  rw [drop_of_splice rep (Nat.le_trans hse hea) ha]
  have h1 : e - s ≤ ((content.take a).drop s).length := by
    simp only [List.length_drop, List.length_take]
    omega
  rw [List.append_assoc, List.take_append_of_le_length h1, List.drop_take]
  rw [List.take_take, Nat.min_eq_left (by omega)]

theorem chain_stops_le {ms : List (Nat × ObjMatch)} {i : Nat} {m : ObjMatch}
    (h : List.Chain' (fun a b => a.2.stop ≤ b.2.start) (ms ++ [(i, m)]))
    (hlt : ∀ p ∈ ms, p.2.start < p.2.stop) :
    ∀ p ∈ ms, p.2.stop ≤ m.start := by
  induction ms with
  | nil => simp
  | cons q ms0 ih =>
    rw [List.cons_append, List.chain'_cons'] at h
    obtain ⟨hq, hrest⟩ := h
    have hall : ∀ p ∈ ms0, p.2.stop ≤ m.start :=
      ih hrest (fun p hp => hlt p (List.mem_cons_of_mem q hp))
    intro p hp
    rcases List.mem_cons.mp hp with rfl | hp0
    · cases hms0 : ms0 with
      | nil =>
        subst hms0
        simpa using hq (i, m) (by simp)
      | cons r ms1 =>
        subst hms0
        have h1 : p.2.stop ≤ r.2.start := by simpa using hq r (by simp)
        have h2 : r.2.start < r.2.stop := hlt r (by simp)
        have h3 : r.2.stop ≤ m.start := hall r (by simp)
        omega
    · exact hall p hp0

theorem renameFwd_append_skip (slots : List Text) (content : Text) (i : Nat) (m : ObjMatch)
    (hnone : slots.get? i = none) (hm1 : m.start < m.stop) (hm2 : m.stop ≤ content.length)
    (hm3 : m.tag = (content.drop m.start).take (m.stop - m.start)) :
    ∀ (ms : List (Nat × ObjMatch)) (pos : Nat),
      (∀ p ∈ ms, p.2.stop ≤ m.start) → pos ≤ m.start →
      renameFwd slots content pos (ms ++ [(i, m)]) = renameFwd slots content pos ms := by
  intro ms
  induction ms with
  | nil =>
    intro pos _ hpos
    show (content.take m.start).drop pos ++ newTagFor slots i m ++ content.drop m.stop =
      content.drop pos
    rw [newTagFor, hnone, hm3]
    exact (drop_slice_decompose hpos (Nat.le_of_lt hm1) hm2).symm
  | cons q ms0 ih =>
    intro pos hstops hpos
    obtain ⟨j, m'⟩ := q
    show (content.take m'.start).drop pos ++ newTagFor slots j m' ++
        renameFwd slots content m'.stop (ms0 ++ [(i, m)]) =
      (content.take m'.start).drop pos ++ newTagFor slots j m' ++
        renameFwd slots content m'.stop ms0
    have hq : (j, m').2.stop ≤ m.start := hstops (j, m') (by simp)
    rw [ih m'.stop (fun p hp => hstops p (List.mem_cons_of_mem _ hp)) hq]

theorem renameFwd_append_splice (slots : List Text) (content : Text) (i : Nat) (m : ObjMatch)
    (hm1 : m.start < m.stop) (hm2 : m.stop ≤ content.length) :
    ∀ (ms : List (Nat × ObjMatch)) (pos : Nat),
      (∀ p ∈ ms, p.2.stop ≤ m.start ∧ p.2.start < p.2.stop) → pos ≤ m.start →
      renameFwd slots (content.take m.start ++ newTagFor slots i m ++ content.drop m.stop)
          pos ms =
        renameFwd slots content pos (ms ++ [(i, m)]) := by
  intro ms
  have ha : m.start ≤ content.length := by omega
  induction ms with
  | nil =>
    intro pos _ hpos
    show (content.take m.start ++ newTagFor slots i m ++ content.drop m.stop).drop pos =
      (content.take m.start).drop pos ++ newTagFor slots i m ++ content.drop m.stop
    exact drop_of_splice _ hpos ha
  | cons q ms0 ih =>
    intro pos hprops hpos
    obtain ⟨j, m'⟩ := q
    have hq := hprops (j, m') (by simp)
    have hq1 : m'.stop ≤ m.start := hq.1
    have hq2 : m'.start < m'.stop := hq.2
    show ((content.take m.start ++ newTagFor slots i m ++ content.drop m.stop).take
          m'.start).drop pos ++ newTagFor slots j m' ++
        renameFwd slots (content.take m.start ++ newTagFor slots i m ++ content.drop m.stop)
          m'.stop ms0 =
      (content.take m'.start).drop pos ++ newTagFor slots j m' ++
        renameFwd slots content m'.stop (ms0 ++ [(i, m)])
    rw [take_of_splice _ (by omega) ha]
    rw [ih m'.stop (fun p hp => hprops p (List.mem_cons_of_mem _ hp)) hq1]

theorem applyRenames_cons (slots : List Text) (ms : List (Nat × ObjMatch))
    (x : Nat × ObjMatch) (content : Text) :
    applyRenames slots (ms ++ [x]) content =
      applyRenames slots ms
        (match slots.get? x.1 with
          | some _ => content.take x.2.start ++ newTagFor slots x.1 x.2 ++ content.drop x.2.stop
          | none => content) := by
  unfold applyRenames
  rw [List.reverse_append]
  simp only [List.reverse_singleton, List.singleton_append, List.foldl_cons]

theorem applyRenames_eq_renameFwd (slots : List Text) :
    ∀ (ms : List (Nat × ObjMatch)) (content : Text),
      (∀ p ∈ ms, p.2.start < p.2.stop ∧ p.2.stop ≤ content.length ∧
          p.2.tag = (content.drop p.2.start).take (p.2.stop - p.2.start)) →
      List.Chain' (fun a b => a.2.stop ≤ b.2.start) ms →
      applyRenames slots ms content = renameFwd slots content 0 ms := by
  intro ms
  induction ms using List.reverseRecOn with
  | nil => intro content _ _; rfl
  | append_singleton ms0 x ih =>
    intro content hprops hchain
    obtain ⟨i, m⟩ := x
    have hxm : (i, m) ∈ ms0 ++ [(i, m)] := by simp
    obtain ⟨hm1, hm2, hm3⟩ := hprops (i, m) hxm
    have hm1 : m.start < m.stop := hm1
    have hm2 : m.stop ≤ content.length := hm2
    have hm3 : m.tag = (content.drop m.start).take (m.stop - m.start) := hm3
    have hprops0 : ∀ p ∈ ms0, p.2.start < p.2.stop ∧ p.2.stop ≤ content.length ∧
        p.2.tag = (content.drop p.2.start).take (p.2.stop - p.2.start) :=
      fun p hp => hprops p (List.mem_append_left _ hp)
    have hchain0 : List.Chain' (fun a b => a.2.stop ≤ b.2.start) ms0 :=
      List.Chain'.prefix hchain (List.prefix_append ms0 [(i, m)])
    have hstops : ∀ p ∈ ms0, p.2.stop ≤ m.start :=
      chain_stops_le hchain (fun p hp => (hprops0 p hp).1)
    rw [applyRenames_cons]
    cases hslot : slots.get? i with
    | none =>
      simp only []
      rw [ih content hprops0 hchain0]
      exact (renameFwd_append_skip slots content i m hslot hm1 hm2 hm3 ms0 0
        hstops (Nat.zero_le _)).symm
    | some nm =>
      simp only []
      have hC : ∀ p ∈ ms0, p.2.start < p.2.stop ∧
          p.2.stop ≤ (content.take m.start ++ newTagFor slots i m ++
            content.drop m.stop).length ∧
          p.2.tag = (((content.take m.start ++ newTagFor slots i m ++
            content.drop m.stop).drop p.2.start).take (p.2.stop - p.2.start)) := by
        intro p hp
        obtain ⟨hp1, hp2, hp3⟩ := hprops0 p hp
        have hps : p.2.stop ≤ m.start := hstops p hp
        refine ⟨hp1, ?_, ?_⟩
        · simp only [List.length_append, List.length_take]
          omega
        · rw [slice_of_splice _ (Nat.le_of_lt hp1) hps (by omega)]
          exact hp3
      rw [ih _ hC hchain0]
      exact renameFwd_append_splice slots content i m hm1 hm2 ms0 0
        (fun p hp => ⟨hstops p hp, (hprops0 p hp).1⟩) (Nat.zero_le _)

theorem withIdxFrom_head? (l : List α) (n : Nat) :
    (withIdxFrom n l).head? = l.head?.map (fun a => (n, a)) := by
  cases l <;> rfl

theorem withIdxFrom_mem {l : List α} {n : Nat} {p : Nat × α}
    (h : p ∈ withIdxFrom n l) : p.2 ∈ l := by
  induction l generalizing n with
  | nil => simp [withIdxFrom] at h
  | cons a as ih =>
    rw [withIdxFrom] at h
    rcases List.mem_cons.mp h with rfl | h0
    · simp
    · exact List.mem_cons_of_mem a (ih h0)

theorem withIdxFrom_chain {R : α → α → Prop} {l : List α} {n : Nat}
    (h : List.Chain' R l) : List.Chain' (fun a b => R a.2 b.2) (withIdxFrom n l) := by
  induction l generalizing n with
  | nil => simp [withIdxFrom]
  | cons a as ih =>
    rw [withIdxFrom, List.chain'_cons']
    rw [List.chain'_cons'] at h
    refine ⟨?_, ih h.2⟩
    intro y hy
    rw [withIdxFrom_head?] at hy
    cases has : as.head? with
    | none => rw [has] at hy; simp at hy
    | some b =>
      rw [has] at hy
      simp only [Option.map_some', Option.mem_def, Option.some.injEq] at hy
      subst hy
      exact h.1 b has

/-- Claim C5: the reverse-position rename loop of `safe_fix_3mf_names`
is exactly the forward-rank assignment: reading the matches in forward
order, the tag of forward rank `i` is replaced by `renameTag` with slot
list entry `i` (its pre-existing name attributes dropped), tags of rank
at or beyond the slot-list length stay unchanged, and every gap between
matches — including object tags without a numeric id — is carried over
verbatim.  The reverse iteration never reverses the assignment. -/
theorem rename_loop_assigns_by_forward_rank (content : Text) (slots : List Text) :
    applyRenames slots (withIdxFrom 0 (scanObjects content)) content =
      renameFwd slots content 0 (withIdxFrom 0 (scanObjects content)) := by
  obtain ⟨hfacts, hchain⟩ := scanObjects_props content
  apply applyRenames_eq_renameFwd
  · intro p hp
    obtain ⟨_, h2, h3, h4⟩ := hfacts p.2 (withIdxFrom_mem hp)
    refine ⟨h2, by simpa using h3, by simpa using h4⟩
  · exact withIdxFrom_chain hchain

/-!
## Line-level reading of the synthesized assembly and build sections
-/

/-- Split a text on a separator character, Python `str.split(sep)`. -/
def splitOnChar (sep : Char) : Text → List Text
  | [] => [[]]
  | c :: cs =>
    if c = sep then [] :: splitOnChar sep cs
    else
      match splitOnChar sep cs with
      | [] => [[c]]
      | t :: ts => (c :: t) :: ts

theorem splitOnChar_ne_nil (sep : Char) (s : Text) : splitOnChar sep s ≠ [] := by
  cases s with
  | nil => simp [splitOnChar]
  | cons c cs =>
    rw [splitOnChar]
    by_cases h : c = sep
    · simp [h]
    · simp only [h, if_false]
      cases splitOnChar sep cs <;> simp

theorem splitOnChar_no_sep {sep : Char} {s : Text} (h : sep ∉ s) :
    splitOnChar sep s = [s] := by
  induction s with
  | nil => rfl
  | cons c cs ih =>
    have hc : ¬ c = sep := fun he => h (he ▸ List.mem_cons_self c cs)
    have hcs : sep ∉ cs := fun hm => h (List.mem_cons_of_mem c hm)
    rw [splitOnChar]
    simp only [hc, if_false, ih hcs]

theorem splitOnChar_append_sep {sep : Char} {x y : Text} (h : sep ∉ x) :
    splitOnChar sep (x ++ sep :: y) = x :: splitOnChar sep y := by
  induction x with
  | nil => simp [splitOnChar]
  | cons c cs ih =>
    have hc : ¬ c = sep := fun he => h (he ▸ List.mem_cons_self c cs)
    have hcs : sep ∉ cs := fun hm => h (List.mem_cons_of_mem c hm)
    rw [List.cons_append, splitOnChar]
    simp only [hc, if_false, ih hcs]

theorem splitOnChar_joinWith {sep : Char} :
    ∀ {parts : List Text}, parts ≠ [] → (∀ p ∈ parts, sep ∉ p) →
      splitOnChar sep (joinWith [sep] parts) = parts := by
  intro parts
  induction parts with
  | nil => intro h _; exact absurd rfl h
  | cons p ps ih =>
    intro _ hall
    cases ps with
    | nil =>
      show splitOnChar sep (joinWith [sep] [p]) = [p]
      rw [joinWith]
      exact splitOnChar_no_sep (hall p (by simp))
    | cons q qs =>
      show splitOnChar sep (p ++ [sep] ++ joinWith [sep] (q :: qs)) = p :: q :: qs
      rw [List.append_assoc, List.singleton_append]
      rw [splitOnChar_append_sep (hall p (by simp))]
      rw [ih (by simp) (fun r hr => hall r (List.mem_cons_of_mem p hr))]

theorem joinWith_append {sep : Text} :
    ∀ {xs ys : List Text}, xs ≠ [] → ys ≠ [] →
      joinWith sep (xs ++ ys) = joinWith sep xs ++ sep ++ joinWith sep ys := by
  intro xs
  induction xs with
  | nil => intro ys h _; exact absurd rfl h
  | cons x xs0 ih =>
    intro ys _ hys
    cases xs0 with
    | nil =>
      cases ys with
      | nil => exact absurd rfl hys
      | cons y ys0 => rfl
    | cons x1 xs1 =>
      have : joinWith sep ((x :: x1 :: xs1) ++ ys) =
          x ++ sep ++ joinWith sep ((x1 :: xs1) ++ ys) := rfl
      rw [this, ih (by simp) hys, joinWith]
      simp [List.append_assoc]

/-!
## Digit strings, decimal rendering, and the scanned object ids
-/

/-- A text consisting only of ASCII digits. -/
def AllDigits (t : Text) : Prop := ∀ c ∈ t, c.isDigit = true

theorem textToNat_append_digit (xs : Text) (c : Char) :
    textToNat (xs ++ [c]) = 10 * textToNat xs + (c.toNat - 48) := by
  unfold textToNat
  rw [List.foldl_append]
  rfl

theorem digitChar_toNat {n : Nat} (h : n < 10) : (Nat.digitChar n).toNat - 48 = n := by
  interval_cases n <;> decide

theorem digitChar_isDigit {n : Nat} (h : n < 10) : (Nat.digitChar n).isDigit = true := by
  interval_cases n <;> decide

theorem natToDecAux_spec :
    ∀ (fuel n : Nat), n < fuel →
      textToNat (natToDecAux fuel n) = n ∧ AllDigits (natToDecAux fuel n) ∧
        natToDecAux fuel n ≠ [] := by
  intro fuel
  induction fuel with
  | zero => intro n h; omega
  | succ fuel ih =>
    intro n h
    by_cases hn : n < 10
    · rw [natToDecAux]
      simp only [hn, if_true]
      refine ⟨?_, ?_, by simp⟩
      · show textToNat ([] ++ [Nat.digitChar n]) = n
        rw [textToNat_append_digit]
        simp [textToNat, digitChar_toNat hn]
      · intro c hc
        simp only [List.mem_singleton] at hc
        subst hc
        exact digitChar_isDigit hn
    · rw [natToDecAux]
      simp only [hn, if_false]
      have hlt : n / 10 < fuel := by
        have h1 : n / 10 < n := Nat.div_lt_self (by omega) (by omega)
        omega
      obtain ⟨h1, h2, h3⟩ := ih (n / 10) hlt
      refine ⟨?_, ?_, by simp [h3]⟩
      · rw [textToNat_append_digit, h1, digitChar_toNat (Nat.mod_lt n (by omega))]
        omega
      · intro c hc
        rcases List.mem_append.mp hc with hc1 | hc2
        · exact h2 c hc1
        · simp only [List.mem_singleton] at hc2
          subst hc2
          exact digitChar_isDigit (Nat.mod_lt n (by omega))

theorem natToDec_roundtrip (n : Nat) : textToNat (natToDec n) = n :=
  (natToDecAux_spec (n + 1) n (by omega)).1

theorem natToDec_digits (n : Nat) : AllDigits (natToDec n) :=
  (natToDecAux_spec (n + 1) n (by omega)).2.1

theorem natToDec_ne_nil (n : Nat) : natToDec n ≠ [] :=
  (natToDecAux_spec (n + 1) n (by omega)).2.2

theorem le_foldl_max (l : List Nat) : ∀ (a : Nat) (x : Nat), x ∈ l → x ≤ l.foldl Nat.max a := by
  induction l with
  | nil => intro a x h; simp at h
  | cons b bs ih =>
    intro a x h
    rcases List.mem_cons.mp h with rfl | h0
    · have h1 : x ≤ Nat.max a x := Nat.le_max_right a x
      have h2 : Nat.max a x ≤ (bs).foldl Nat.max (Nat.max a x) := by
        clear ih h1 h
        induction bs generalizing a x with
        | nil => simp
        | cons c cs ihc =>
          rw [List.foldl_cons]
          exact Nat.le_trans (Nat.le_max_left (Nat.max a x) c) (ihc _ _)
      exact Nat.le_trans h1 h2
    · exact ih (Nat.max a b) x h0

theorem maxIdOf_ge {ids : List Text} {t : Text} (h : t ∈ ids) :
    textToNat t ≤ maxIdOf ids :=
  le_foldl_max (ids.map textToNat) 0 (textToNat t) (List.mem_map_of_mem textToNat h)

theorem idAttemptAt_digits {b : Bool} {s : Text} {ds : Text}
    (h : idAttemptAt b s = some ds) : ds ≠ [] ∧ AllDigits ds := by
  unfold idAttemptAt at h
  by_cases hcond : (b && (lit "id=\"").isPrefixOf s) = true
  · rw [if_pos hcond] at h
    by_cases hguard : ((s.drop 4).takeWhile Char.isDigit ≠ [] ∧
        (s.drop (4 + ((s.drop 4).takeWhile Char.isDigit).length)).head? = some '"')
    · rw [if_pos hguard] at h
      simp only [Option.some.injEq] at h
      subst h
      refine ⟨hguard.1, ?_⟩
      intro d hd
      exact List.mem_takeWhile_imp hd
    · rw [if_neg hguard] at h
      exact absurd h (by simp)
  · rw [if_neg hcond] at h
    exact absurd h (by simp)

theorem searchId_digits {s : Text} :
    ∀ {b : Bool} {ds : Text}, searchId b s = some ds → ds ≠ [] ∧ AllDigits ds := by
  induction s with
  | nil => intro b ds h; simp [searchId] at h
  | cons c cs ih =>
    intro b ds h
    rw [searchId] at h
    cases ha : idAttemptAt b (c :: cs) with
    | some ds0 =>
      rw [ha] at h
      simp only [Option.some.injEq] at h
      subst h
      exact idAttemptAt_digits ha
    | none =>
      rw [ha] at h
      exact ih h

theorem scanAux_ids_digits :
    ∀ (fuel : Nat) (s : Text) (off : Nat) (m : ObjMatch), m ∈ scanAux fuel s off →
      m.objId ≠ [] ∧ AllDigits m.objId := by
  intro fuel
  induction fuel with
  | zero => intro s off m h; simp [scanAux] at h
  | succ fuel ih =>
    intro s off m h
    match s with
    | [] => simp [scanAux] at h
    | c0 :: rest =>
      cases hm : matchObjAt (c0 :: rest) with
      | none =>
        rw [scanAux] at h
        simp only [hm] at h
        exact ih rest (off + 1) m h
      | some p =>
        obtain ⟨len, attrs⟩ := p
        rw [scanAux] at h
        simp only [hm] at h
        cases hid : searchId true attrs with
        | none =>
          simp only [hid] at h
          exact ih _ _ m h
        | some ds =>
          simp only [hid] at h
          rcases List.mem_cons.mp h with rfl | h0
          · simpa using searchId_digits hid
          · exact ih _ _ m h0

/-- The newline character, the separator of the synthesized lines. -/
def newlineChar : Char := '\n'

/-- The object start tag of ``assembly_xml`` as one line of text. -/
def objectHeaderLine (aid : Text) : Text :=
  lit "  <object id=\"" ++ aid ++ lit "\" type=\"model\" name=\"Lumina_Model\">"

/-- The lines of ``assembly_xml``, in order. -/
def assemblyLines (aid : Text) (ids : List Text) : List Text :=
  [[], objectHeaderLine aid, lit "    <components>"] ++ ids.map componentLine ++
    [lit "    </components>", lit "  </object>", []]

theorem assemblyXml_eq_joinWith {aid : Text} {ids : List Text} (h : ids ≠ []) :
    assemblyXml aid ids = joinWith [newlineChar] (assemblyLines aid ids) := by
  have hmap : ids.map componentLine ≠ [] := by
    simpa using h
  rw [assemblyLines, List.append_assoc, joinWith_append (by simp) (by simp),
    joinWith_append hmap (by simp)]
  rw [assemblyXml, objectHeaderLine]
  have h1 : lit "\n  <object id=\"" = [newlineChar] ++ lit "  <object id=\"" := by decide
  have h2 : lit "\" type=\"model\" name=\"Lumina_Model\">\n    <components>\n" =
      lit "\" type=\"model\" name=\"Lumina_Model\">" ++ [newlineChar] ++
        lit "    <components>" ++ [newlineChar] := by decide
  have h3 : lit "\n    </components>\n  </object>\n" =
      [newlineChar] ++ (lit "    </components>" ++ [newlineChar] ++
        (lit "  </object>" ++ [newlineChar] ++ [])) := by decide
  have h4 : joinWith [newlineChar] [([] : Text), lit "  <object id=\"" ++ aid ++
      lit "\" type=\"model\" name=\"Lumina_Model\">", lit "    <components>"] =
      [] ++ [newlineChar] ++ (lit "  <object id=\"" ++ aid ++
        lit "\" type=\"model\" name=\"Lumina_Model\">") ++ [newlineChar] ++
        lit "    <components>" := by
    simp [joinWith, List.append_assoc]
  have h5 : joinWith [newlineChar] [lit "    </components>", lit "  </object>", ([] : Text)] =
      lit "    </components>" ++ [newlineChar] ++ (lit "  </object>" ++ [newlineChar] ++ []) := by
    simp [joinWith, List.append_assoc]
  rw [h4, h5, h1, h2, h3, show (lit "\n") = [newlineChar] from by decide]
  simp [List.append_assoc]

theorem digits_no_newline {t : Text} (h : AllDigits t) : newlineChar ∉ t := by
  intro hm
  exact absurd (h newlineChar hm) (by decide)

theorem newline_not_mem_componentLine {oid : Text} (h : AllDigits oid) :
    newlineChar ∉ componentLine oid := by
  intro hm
  rw [componentLine] at hm
  rcases List.mem_append.mp hm with hm1 | hm2
  · rcases List.mem_append.mp hm1 with hm3 | hm4
    · revert hm3; decide
    · exact digits_no_newline h hm4
  · revert hm2; decide

theorem newline_not_mem_objectHeaderLine {aid : Text} (h : AllDigits aid) :
    newlineChar ∉ objectHeaderLine aid := by
  intro hm
  rw [objectHeaderLine] at hm
  rcases List.mem_append.mp hm with hm1 | hm2
  · rcases List.mem_append.mp hm1 with hm3 | hm4
    · revert hm3; decide
    · exact digits_no_newline h hm4
  · revert hm2; decide

theorem splitOnChar_assemblyXml {aid : Text} {ids : List Text} (hne : ids ≠ [])
    (haid : AllDigits aid) (hids : ∀ t ∈ ids, AllDigits t) :
    splitOnChar newlineChar (assemblyXml aid ids) = assemblyLines aid ids := by
  rw [assemblyXml_eq_joinWith hne]
  apply splitOnChar_joinWith
  · simp [assemblyLines]
  · intro p hp
    rw [assemblyLines] at hp
    rcases List.mem_append.mp hp with hp1 | hp2
    · rcases List.mem_cons.mp hp1 with rfl | hp3
      · simp
      · rcases List.mem_cons.mp hp3 with rfl | hp4
        · exact newline_not_mem_objectHeaderLine haid
        · rcases List.mem_cons.mp hp4 with rfl | hp5
          · decide
          · obtain ⟨oid, hoid, rfl⟩ := List.mem_map.mp hp5
            exact newline_not_mem_componentLine (hids oid hoid)
    · rcases List.mem_cons.mp hp2 with rfl | hp5
      · decide
      · rcases List.mem_cons.mp hp5 with rfl | hp6
        · decide
        · rcases List.mem_cons.mp hp6 with rfl | hp7
          · simp
          · simp at hp7

/-- Recover the object id referenced by one synthesized component line;
`none` for any other line. -/
def parseComponentLine (l : Text) : Option Text :=
  if (lit "      <component objectid=\"").isPrefixOf l then
    let core := l.drop (lit "      <component objectid=\"").length
    let v := core.takeWhile (fun c => !(c = '"'))
    if core.drop v.length = lit "\" />" then some v else none
  else none

/-- The component object ids read back line by line from a text. -/
def componentIdsOf (s : Text) : List Text :=
  (splitOnChar newlineChar s).filterMap parseComponentLine

/-- Recover the object id referenced by one synthesized build item line;
`none` for any other line. -/
def parseItemLine (l : Text) : Option Text :=
  if (lit "    <item objectid=\"").isPrefixOf l then
    let core := l.drop (lit "    <item objectid=\"").length
    let v := core.takeWhile (fun c => !(c = '"'))
    if core.drop v.length = lit "\" />" then some v else none
  else none

/-- The build item object ids read back line by line from a text. -/
def itemIdsOf (s : Text) : List Text :=
  (splitOnChar newlineChar s).filterMap parseItemLine

theorem takeWhile_digits_quote {v : Text} (h : AllDigits v) (rest : Text) :
    (v ++ '"' :: rest).takeWhile (fun c => !(c = '"')) = v := by
  induction v with
  | nil => simp [List.takeWhile]
  | cons c cs ih =>
    have hc : c.isDigit = true := h c (by simp)
    have hcq : (!(c = '"')) = true := by
      have : ¬ c = '"' := by
        intro he
        subst he
        exact absurd hc (by decide)
      simp [this]
    rw [List.cons_append, List.takeWhile_cons]
    simp only [hcq, if_true]
    rw [ih (fun d hd => h d (List.mem_cons_of_mem c hd))]

theorem parseComponentLine_componentLine {oid : Text} (h : AllDigits oid) :
    parseComponentLine (componentLine oid) = some oid := by
  rw [parseComponentLine, componentLine]
  have hpre : (lit "      <component objectid=\"").isPrefixOf
      (lit "      <component objectid=\"" ++ oid ++ lit "\" />") = true := by
    rw [List.append_assoc]
    exact List.isPrefixOf_iff_prefix.mpr (List.prefix_append _ _)
  rw [if_pos hpre, List.append_assoc, List.drop_left]
  have hsuf : (lit "\" />" : Text) = '"' :: lit " />" := by decide
  rw [hsuf]
  simp only [takeWhile_digits_quote h (lit " />"), List.drop_left]
  simp

theorem parseItemLine_itemLine {oid : Text} (h : AllDigits oid) :
    parseItemLine (lit "    <item objectid=\"" ++ oid ++ lit "\" />") = some oid := by
  rw [parseItemLine]
  have hpre : (lit "    <item objectid=\"").isPrefixOf
      (lit "    <item objectid=\"" ++ oid ++ lit "\" />") = true := by
    rw [List.append_assoc]
    exact List.isPrefixOf_iff_prefix.mpr (List.prefix_append _ _)
  rw [if_pos hpre, List.append_assoc, List.drop_left]
  have hsuf : (lit "\" />" : Text) = '"' :: lit " />" := by decide
  rw [hsuf]
  simp only [takeWhile_digits_quote h (lit " />"), List.drop_left]
  simp

theorem parseComponentLine_objectHeaderLine (aid : Text) :
    parseComponentLine (objectHeaderLine aid) = none := rfl

theorem filterMap_parseComponentLine_map {ids : List Text} (h : ∀ t ∈ ids, AllDigits t) :
    (ids.map componentLine).filterMap parseComponentLine = ids := by
  induction ids with
  | nil => rfl
  | cons oid rest ih =>
    rw [List.map_cons, List.filterMap_cons,
      parseComponentLine_componentLine (h oid (by simp))]
    rw [ih (fun t ht => h t (List.mem_cons_of_mem oid ht))]

theorem componentIdsOf_assemblyXml {aid : Text} {ids : List Text} (hne : ids ≠ [])
    (haid : AllDigits aid) (hids : ∀ t ∈ ids, AllDigits t) :
    componentIdsOf (assemblyXml aid ids) = ids := by
  rw [componentIdsOf, splitOnChar_assemblyXml hne haid hids, assemblyLines]
  rw [List.filterMap_append, List.filterMap_append,
    filterMap_parseComponentLine_map hids]
  have h1 : ([[], objectHeaderLine aid, lit "    <components>"] : List Text).filterMap
      parseComponentLine = [] := by
    rw [List.filterMap_cons, List.filterMap_cons, List.filterMap_cons]
    rw [parseComponentLine_objectHeaderLine]
    rfl
  have h2 : ([lit "    </components>", lit "  </object>", []] : List Text).filterMap
      parseComponentLine = [] := by decide
  rw [h1, h2]
  simp

/-- The lines of the replacement build section. -/
def newBuildLines (aid : Text) : List Text :=
  [lit "<build>", lit "    <item objectid=\"" ++ aid ++ lit "\" />", lit "  </build>"]

theorem newBuild_eq_joinWith (aid : Text) :
    newBuild aid = joinWith [newlineChar] (newBuildLines aid) := by
  rw [newBuild, newBuildLines]
  have h1 : lit "<build>\n    <item objectid=\"" =
      lit "<build>" ++ [newlineChar] ++ lit "    <item objectid=\"" := by decide
  have h2 : lit "\" />\n  </build>" = lit "\" />" ++ [newlineChar] ++ lit "  </build>" := by
    decide
  have h3 : joinWith [newlineChar] [lit "<build>",
      lit "    <item objectid=\"" ++ aid ++ lit "\" />", lit "  </build>"] =
      lit "<build>" ++ [newlineChar] ++ (lit "    <item objectid=\"" ++ aid ++ lit "\" />") ++
        [newlineChar] ++ lit "  </build>" := by
    simp [joinWith, List.append_assoc]
  rw [h3, h1, h2]
  simp [List.append_assoc]

theorem itemIdsOf_newBuild {aid : Text} (haid : AllDigits aid) :
    itemIdsOf (newBuild aid) = [aid] := by
  rw [itemIdsOf, newBuild_eq_joinWith]
  rw [splitOnChar_joinWith (by simp [newBuildLines]) ?hall]
  case hall =>
    intro p hp
    rw [newBuildLines] at hp
    rcases List.mem_cons.mp hp with rfl | hp1
    · decide
    · rcases List.mem_cons.mp hp1 with rfl | hp2
      · intro hm
        rcases List.mem_append.mp hm with hm1 | hm2
        · rcases List.mem_append.mp hm1 with hm3 | hm4
          · revert hm3; decide
          · exact digits_no_newline haid hm4
        · revert hm2; decide
      · rcases List.mem_cons.mp hp2 with rfl | hp3
        · decide
        · simp at hp3
  rw [newBuildLines, List.filterMap_cons, List.filterMap_cons, List.filterMap_cons]
  rw [parseItemLine_itemLine haid]
  rfl

theorem objectIds_digits {content : Text} {t : Text} (h : t ∈ objectIdsOf content) :
    t ≠ [] ∧ AllDigits t := by
  rw [objectIdsOf] at h
  obtain ⟨m, hm, rfl⟩ := List.mem_map.mp h
  exact scanAux_ids_digits content.length content 0 m hm

theorem assemblyId_not_mem {content : Text} (h : assemblyIdOf content ∈ objectIdsOf content) :
    False := by
  have h1 : textToNat (assemblyIdOf content) ≤ maxIdOf (objectIdsOf content) :=
    maxIdOf_ge h
  have h2 : textToNat (assemblyIdOf content) = maxIdOf (objectIdsOf content) + 1 := by
    rw [assemblyIdOf, natToDec_roundtrip]
  omega

theorem take_of_insert {c1 asm : Text} {r b1 : Nat} (hr : r ≤ c1.length)
    (hb : r + asm.length ≤ b1) :
    (c1.take r ++ asm ++ c1.drop r).take b1 =
      c1.take r ++ asm ++ (c1.drop r).take (b1 - (r + asm.length)) := by
  have h1 : (c1.take r).length = r := List.length_take_of_le hr
  rw [List.append_assoc, List.take_append_eq_append_take, h1]
  rw [List.take_of_length_le (show (c1.take r).length ≤ b1 by omega)]
  rw [List.take_append_eq_append_take]
  rw [List.take_of_length_le (show asm.length ≤ b1 - r by omega)]
  have h2 : b1 - r - asm.length = b1 - (r + asm.length) := by omega
  rw [h2, List.append_assoc]

theorem drop_at_match {pat c1 : Text} {r : Nat} (hr : findSubstr pat c1 = some r) :
    c1.drop r = pat ++ c1.drop (r + pat.length) := by
  obtain ⟨hlen, hdec⟩ := findSubstr_spec hr
  have h1 : (c1.take r).length = r := List.length_take_of_le (by omega)
  conv_lhs => rw [hdec]
  rw [List.append_assoc, List.drop_append_eq_append_drop, h1, Nat.sub_self,
    List.drop_of_length_le (by rw [h1])]
  simp

/-- Claim C3: with assembly synthesis enabled and at least two scanned
object ids, the output text consists of the renamed text with
`assembly_xml` spliced in at the position of the first `</resources>`
literal and the matched build region replaced by the single-item build
section.  The assembly block's object line carries the id
`max(ids) + 1` and the fixed name `Lumina_Model`, its component lines
reference exactly the scanned ids in discovery order, the new build
section references exactly the assembly id, and the assembly id equals
no pre-existing object id.  The hypotheses place the first `</resources>`
literal in the renamed text and require the matched build region to
start after the inserted assembly block, as it does in a conforming
model document. -/
theorem assembly_and_build_synthesis (content : Text) (slots : List Text)
    (r b1 b2 : Nat)
    (h2 : 2 ≤ (objectIdsOf content).length)
    (hr : findSubstr (lit "</resources>") (renamedContent content slots) = some r)
    (hb : buildMatch (assembledContent content slots) = some (b1, b2))
    (hbr : r + (assemblyXml (assemblyIdOf content) (objectIdsOf content)).length + 12 ≤ b1) :
    ∃ mid post,
      fixNamesContent content slots true =
        (renamedContent content slots).take r ++
          assemblyXml (assemblyIdOf content) (objectIdsOf content) ++ mid ++
          newBuild (assemblyIdOf content) ++ post ∧
      (lit "</resources>").isPrefixOf mid = true ∧
      componentIdsOf (assemblyXml (assemblyIdOf content) (objectIdsOf content)) =
        objectIdsOf content ∧
      objectHeaderLine (assemblyIdOf content) ∈
        splitOnChar newlineChar
          (assemblyXml (assemblyIdOf content) (objectIdsOf content)) ∧
      itemIdsOf (newBuild (assemblyIdOf content)) = [assemblyIdOf content] ∧
      assemblyIdOf content ∉ objectIdsOf content := by
  have hne : objectIdsOf content ≠ [] := by
    intro he
    rw [he] at h2
    simp at h2
  have hdigids : ∀ t ∈ objectIdsOf content, AllDigits t :=
    fun t ht => (objectIds_digits ht).2
  have hdigaid : AllDigits (assemblyIdOf content) := natToDec_digits _
  have hcomp := componentIdsOf_assemblyXml hne hdigaid hdigids
  have hitems : itemIdsOf (newBuild (assemblyIdOf content)) = [assemblyIdOf content] :=
    itemIdsOf_newBuild hdigaid
  have hhdr : objectHeaderLine (assemblyIdOf content) ∈
      splitOnChar newlineChar
        (assemblyXml (assemblyIdOf content) (objectIdsOf content)) := by
    rw [splitOnChar_assemblyXml hne hdigaid hdigids, assemblyLines]
    simp
  have hnotmem : assemblyIdOf content ∉ objectIdsOf content :=
    fun hm => assemblyId_not_mem hm
  obtain ⟨hrlen, _⟩ := findSubstr_spec hr
  have h12 : (lit "</resources>").length = 12 := by decide
  rw [h12] at hrlen
  have hc2 : assembledContent content slots =
      (renamedContent content slots).take r ++
        assemblyXml (assemblyIdOf content) (objectIdsOf content) ++
        (renamedContent content slots).drop r := by
    rw [assembledContent]
    simp only [hr]
  have hfix : fixNamesContent content slots true =
      (assembledContent content slots).take b1 ++ newBuild (assemblyIdOf content) ++
        (assembledContent content slots).drop b2 := by
    rw [fixNamesContent]
    rw [if_pos ⟨rfl, by omega⟩]
    simp only [hb]
  have htake : (assembledContent content slots).take b1 =
      (renamedContent content slots).take r ++
        assemblyXml (assemblyIdOf content) (objectIdsOf content) ++
        ((renamedContent content slots).drop r).take
          (b1 - (r + (assemblyXml (assemblyIdOf content) (objectIdsOf content)).length)) := by
    rw [hc2]
    exact take_of_insert (by omega) (by omega)
  refine ⟨((renamedContent content slots).drop r).take
      (b1 - (r + (assemblyXml (assemblyIdOf content) (objectIdsOf content)).length)),
    (assembledContent content slots).drop b2, ?_, ?_, hcomp, hhdr, hitems, hnotmem⟩
  · rw [hfix, htake]
  · have hdropr := drop_at_match hr
    rw [hdropr, List.take_append_eq_append_take]
    rw [List.take_of_length_le (by omega)]
    rw [ List.isPrefixOf_iff_prefix]
    exact List.prefix_append _ _

/-- A concrete two-object model text used to witness the assembly
synthesis theorem. -/
def cw3 : Text := lit "<model><resources><object id=\"1\" ><mesh></mesh></object><object id=\"2\" ></object></resources><build><item objectid=\"1\" /></build></model>"

/-- The slot names used to witness the assembly synthesis theorem. -/
def sw3 : List Text := [lit "Red", lit "Blue"]

set_option maxRecDepth 40000 in
theorem assembly_and_build_synthesis_witness :
    2 ≤ (objectIdsOf cw3).length ∧
    (∃ mid post,
      fixNamesContent cw3 sw3 true =
        (renamedContent cw3 sw3).take 104 ++
          assemblyXml (assemblyIdOf cw3) (objectIdsOf cw3) ++ mid ++
          newBuild (assemblyIdOf cw3) ++ post ∧
      (lit "</resources>").isPrefixOf mid = true ∧
      componentIdsOf (assemblyXml (assemblyIdOf cw3) (objectIdsOf cw3)) =
        objectIdsOf cw3 ∧
      objectHeaderLine (assemblyIdOf cw3) ∈
        splitOnChar newlineChar (assemblyXml (assemblyIdOf cw3) (objectIdsOf cw3)) ∧
      itemIdsOf (newBuild (assemblyIdOf cw3)) = [assemblyIdOf cw3] ∧
      assemblyIdOf cw3 ∉ objectIdsOf cw3) :=
  ⟨by decide,
    assembly_and_build_synthesis cw3 sw3 104 281 317 (by decide) (by decide) (by decide)
      (by decide)⟩

/-!
## Color mode detection (add_3mf_colors.py lines 17-31, 98-119)
-/

/-- The `RYBW_COLORS` palette: entry names and ARGB hex strings, in
declaration order. -/
def RYBW_COLORS : List (Text × Text) :=
  [(lit "Red", lit "#FF0000FF"), (lit "Yellow", lit "#FFFF00FF"),
   (lit "Blue", lit "#0000FFFF"), (lit "White", lit "#FFFFFFFF")]

/-- The `CMYW_COLORS` palette: entry names and ARGB hex strings, in
declaration order. -/
def CMYW_COLORS : List (Text × Text) :=
  [(lit "Cyan", lit "#00FFFFFF"), (lit "Magenta", lit "#FF00FFFF"),
   (lit "Yellow", lit "#FFFF00FF"), (lit "White", lit "#FFFFFFFF")]

/-- Python `name in D` for the palette dictionaries. -/
def dictHasKey (d : List (Text × Text)) (k : Text) : Bool :=
  d.any (fun p => p.1 = k)

/-- The `detect_color_mode` function: count the candidate names that
are keys of each palette and prefer the mode with more matches,
defaulting to rybw on a tie. -/
def detect_color_mode (object_names : List Text) : Text :=
  let rybw_count := object_names.countP (fun n => dictHasKey RYBW_COLORS n)
  let cmyw_count := object_names.countP (fun n => dictHasKey CMYW_COLORS n)
  if rybw_count < cmyw_count then lit "cmyw"
  else if cmyw_count < rybw_count then lit "rybw"
  else lit "rybw"

theorem dictHasKey_eq_mem (d : List (Text × Text)) (n : Text) :
    dictHasKey d n = decide (n ∈ d.map Prod.fst) := by
  induction d with
  | nil => simp [dictHasKey]
  | cons p ps ih =>
    rw [dictHasKey, List.any_cons]
    rw [dictHasKey] at ih
    rw [ih]
    by_cases h : n = p.1
    · subst h
      simp
    · have h2 : ¬ p.1 = n := fun he => h he.symm
      simp [h, h2]

/-- Claim C8: `detect_color_mode` counts exact matches of the candidate
names against the entry names of the two fixed palettes, returns the
palette with the strictly higher count, defaults to rybw (WarmPrimary)
on any tie including zero-zero, and in particular maps
`["Yellow", "White"]` to rybw and `["Cyan", "Magenta"]` to cmyw. -/
theorem detect_color_mode_majority (names : List Text) :
    (names.countP (fun n => decide (n ∈ CMYW_COLORS.map Prod.fst)) <
        names.countP (fun n => decide (n ∈ RYBW_COLORS.map Prod.fst)) →
      detect_color_mode names = lit "rybw") ∧
    (names.countP (fun n => decide (n ∈ RYBW_COLORS.map Prod.fst)) <
        names.countP (fun n => decide (n ∈ CMYW_COLORS.map Prod.fst)) →
      detect_color_mode names = lit "cmyw") ∧
    (names.countP (fun n => decide (n ∈ RYBW_COLORS.map Prod.fst)) =
        names.countP (fun n => decide (n ∈ CMYW_COLORS.map Prod.fst)) →
      detect_color_mode names = lit "rybw") ∧
    detect_color_mode [lit "Yellow", lit "White"] = lit "rybw" ∧
    detect_color_mode [lit "Cyan", lit "Magenta"] = lit "cmyw" := by
  have hr : (fun n => dictHasKey RYBW_COLORS n) =
      (fun n => decide (n ∈ RYBW_COLORS.map Prod.fst)) := by
    funext n
    exact dictHasKey_eq_mem RYBW_COLORS n
  have hc : (fun n => dictHasKey CMYW_COLORS n) =
      (fun n => decide (n ∈ CMYW_COLORS.map Prod.fst)) := by
    funext n
    exact dictHasKey_eq_mem CMYW_COLORS n
  refine ⟨?_, ?_, ?_, by decide, by decide⟩
  · intro h
    rw [detect_color_mode]
    simp only [hr, hc]
    rw [if_neg (by omega), if_pos h]
  · intro h
    rw [detect_color_mode]
    simp only [hr, hc]
    rw [if_pos h]
  · intro h
    rw [detect_color_mode]
    simp only [hr, hc]
    rw [if_neg (by omega), if_neg (by omega)]

/-- Witness for the detection theorem at concrete inputs: one name list
matching only the rybw palette and one matching only the cmyw palette. -/
theorem detect_color_mode_majority_witness :
    ([lit "Blue"].countP (fun n => decide (n ∈ CMYW_COLORS.map Prod.fst)) <
        [lit "Blue"].countP (fun n => decide (n ∈ RYBW_COLORS.map Prod.fst)) ∧
      detect_color_mode [lit "Blue"] = lit "rybw") ∧
    ([lit "Cyan"].countP (fun n => decide (n ∈ RYBW_COLORS.map Prod.fst)) <
        [lit "Cyan"].countP (fun n => decide (n ∈ CMYW_COLORS.map Prod.fst)) ∧
      detect_color_mode [lit "Cyan"] = lit "cmyw") :=
  ⟨⟨by decide, (detect_color_mode_majority [lit "Blue"]).1 (by decide)⟩,
    ⟨by decide, (detect_color_mode_majority [lit "Cyan"]).2.1 (by decide)⟩⟩

/-!
## XML element tree embedding (add_3mf_colors.py)

`XElem` embeds `xml.etree.ElementTree.Element`: a tag (with the
namespace spliced into the tag text, as ElementTree does), an ordered
attribute dictionary, and the list of child elements.  In-place
mutations of the source become tree-rebuilding functions here.
-/

inductive XElem where
  | mk (tag : Text) (attrs : List (Text × Text)) (children : List XElem)

/-- The tag of an element. -/
def XElem.tagOf : XElem → Text
  | .mk t _ _ => t

/-- The ordered attribute dictionary of an element. -/
def XElem.attrsOf : XElem → List (Text × Text)
  | .mk _ a _ => a

/-- The child elements, in document order. -/
def XElem.childrenOf : XElem → List XElem
  | .mk _ _ c => c

/-- Python `local in tag.split('}')`: the namespace-tolerant local-name
test used all over `add_3mf_colors.py`. -/
def localHas (local_name : Text) (tag : Text) : Bool :=
  (splitOnChar '\x7d' tag).any (fun seg => seg = local_name)

/-- `Element.get(k)`: first attribute with the given name. -/
def getAttr (e : XElem) (k : Text) : Option Text :=
  (e.attrsOf.find? (fun p => p.1 = k)).map Prod.snd

/-- `Element.get(k, default)`. -/
def getAttrD (e : XElem) (k d : Text) : Text :=
  (getAttr e k).getD d

/-- `Element.set(k, v)` on the attribute dictionary: overwrite the
existing binding in place, or append a new one. -/
def setAttrList (attrs : List (Text × Text)) (k v : Text) : List (Text × Text) :=
  if attrs.any (fun p => p.1 = k) then
    attrs.map (fun p => if p.1 = k then (k, v) else p)
  else attrs ++ [(k, v)]

/-- `Element.set(k, v)`. -/
def setAttr (e : XElem) (k v : Text) : XElem :=
  XElem.mk e.tagOf (setAttrList e.attrsOf k v) e.childrenOf

/-- `is_assembly`: first an exact `components` tag lookup, then the
namespace-tolerant scan of the children. -/
def is_assembly (e : XElem) : Bool :=
  match e.childrenOf.find? (fun c => c.tagOf = lit "components") with
  | some _ => true
  | none => e.childrenOf.any (fun c => localHas (lit "components") c.tagOf)

/-- One entry of the object catalog built by `get_objects_info`. -/
structure ObjInfo where
  element : XElem
  objId : Option Text
  name : Text
  otype : Text
  isAsm : Bool

/-- Python `str.strip(c)`: remove the character from both ends. -/
def stripChar (c : Char) (t : Text) : Text :=
  ((t.dropWhile (fun d => d = c)).reverse.dropWhile (fun d => d = c)).reverse

/-- The namespace of the root tag, as `get_objects_info` derives it:
the text before the closing brace, with braces stripped; empty when
the root tag carries no brace. -/
def rootTagNamespace (root : XElem) : Text :=
  if decide ('\x7d' ∈ root.tagOf) then
    stripChar '\x7b' ((splitOnChar '\x7d' root.tagOf).headD [])
  else []

/-- The second fallback of the `resources` lookup: an exact search for
the tag qualified with the root's namespace, skipped when that
namespace is empty. -/
def nsQualifiedResources (root : XElem) : Option XElem :=
  if rootTagNamespace root ≠ [] then
    root.childrenOf.find?
      (fun c => c.tagOf = '\x7b' :: (rootTagNamespace root ++ '\x7d' :: lit "resources"))
  else none

/-- The three-stage `resources` lookup of `get_objects_info`: exact
tag, namespace-qualified tag derived from the root tag, then the
namespace-tolerant scan. -/
def findResources (root : XElem) : Option XElem :=
  match root.childrenOf.find? (fun c => c.tagOf = lit "resources") with
  | some r => some r
  | none =>
    match nsQualifiedResources root with
    | some r => some r
    | none => root.childrenOf.find? (fun c => localHas (lit "resources") c.tagOf)

/-- `get_objects_info`: catalog every namespace-tolerant `object` child
of the resources element; raise when resources is absent. -/
def get_objects_info (root : XElem) : Except Text (List ObjInfo) :=
  match findResources root with
  | none => .error (lit "<resources> element missing in XML")
  | some resources =>
    .ok ((resources.childrenOf.filter (fun c => localHas (lit "object") c.tagOf)).map
      (fun obj => ⟨obj, getAttr obj (lit "id"), getAttrD obj (lit "name") [],
        getAttrD obj (lit "type") (lit "model"), is_assembly obj⟩))

/-- `get_colorgroup_id`: fixed mode-specific name-to-id table, with
`"1"` as the default for unknown names. -/
def get_colorgroup_id (color_name : Text) (color_mode : Text) : Text :=
  let rybw_map : List (Text × Text) :=
    [(lit "Red", lit "1"), (lit "Yellow", lit "2"), (lit "Blue", lit "3"), (lit "White", lit "4")]
  let cmyw_map : List (Text × Text) :=
    [(lit "Cyan", lit "1"), (lit "Magenta", lit "2"), (lit "Yellow", lit "3"),
      (lit "White", lit "4")]
  let color_to_id_map := if color_mode = lit "cmyw" then cmyw_map else rybw_map
  ((color_to_id_map.find? (fun p => p.1 = color_name)).map Prod.snd).getD (lit "1")

/-- The palette dictionary selected by `insert_colorgroups`. -/
def colorsFor (color_mode : Text) : List (Text × Text) :=
  if color_mode = lit "cmyw" then CMYW_COLORS else RYBW_COLORS

/-- The 3MF material namespace constant. -/
def MATERIAL_NAMESPACE : Text :=
  lit "http://schemas.microsoft.com/3dmanufacturing/material/2015/02"

/-- A tag qualified with the material namespace, as ElementTree writes
it: the namespace in braces followed by the local name. -/
def matTag (local_name : Text) : Text :=
  '\x7b' :: (MATERIAL_NAMESPACE ++ '\x7d' :: local_name)

/-- One synthesized colorgroup element with its single color child. -/
def mkColorgroup (color_name color_value color_mode : Text) : XElem :=
  XElem.mk (matTag (lit "colorgroup"))
    [(lit "id", get_colorgroup_id color_name color_mode)]
    [XElem.mk (matTag (lit "color")) [(lit "color", color_value)] []]

/-- The colorgroup elements built by `insert_colorgroups`, in palette
declaration order. -/
def colorgroupElems (color_mode : Text) : List XElem :=
  (colorsFor color_mode).map (fun p => mkColorgroup p.1 p.2 color_mode)

/-- Python `list.insert(i, x)` (clamping beyond-length indices to an
append, as Python does). -/
def insertAt : Nat → XElem → List XElem → List XElem
  | 0, x, l => x :: l
  | _ + 1, x, [] => [x]
  | n + 1, x, a :: l => a :: insertAt n x l

/-- `insert_colorgroups`: build one colorgroup per palette entry, find
the index of the first namespace-tolerant `object` child, then insert
the colorgroups in reverse order at that index (or append each when no
object child exists).  Returns the new resources element and the
name-to-id mapping. -/
def insert_colorgroups (resources : XElem) (color_mode : Text) : XElem × List (Text × Text) :=
  let colorgroup_elements := colorgroupElems color_mode
  let colorgroup_map :=
    (colorsFor color_mode).map (fun p => (p.1, get_colorgroup_id p.1 color_mode))
  let object_index := resources.childrenOf.findIdx? (fun c => localHas (lit "object") c.tagOf)
  let newChildren := colorgroup_elements.reverse.foldl
    (fun cs g =>
      match object_index with
      | some i => insertAt i g cs
      | none => cs ++ [g])
    resources.childrenOf
  (XElem.mk resources.tagOf resources.attrsOf newChildren, colorgroup_map)

/-- Python `D.get(k)` over the name-to-id mapping. -/
def lookupName (d : List (Text × Text)) (k : Text) : Option Text :=
  (d.find? (fun p => p.1 = k)).map Prod.snd

/-- Replace the first child satisfying the predicate, embedding the
source's find-first-then-mutate-in-place pattern. -/
def updateFirstChild (p : XElem → Bool) (f : XElem → XElem) : List XElem → List XElem
  | [] => []
  | c :: cs => if p c then f c :: cs else c :: updateFirstChild p f cs

/-- Set `pid` and `p1` on every namespace-tolerant `triangle` child of
a triangles element. -/
def tagTriangles (gid : Text) (tris : XElem) : XElem :=
  XElem.mk tris.tagOf tris.attrsOf
    (tris.childrenOf.map (fun t =>
      if localHas (lit "triangle") t.tagOf then
        setAttr (setAttr t (lit "pid") gid) (lit "p1") (lit "0")
      else t))

/-- The per-object body of `add_triangle_colors`: skip assemblies,
unmapped names, and objects without mesh or triangles; otherwise tag
every triangle of the first triangles child of the first mesh child. -/
def add_triangle_colors_obj (cmap : List (Text × Text)) (o : ObjInfo) : XElem :=
  if o.isAsm then o.element
  else
    match lookupName cmap o.name with
    | none => o.element
    | some gid =>
      match o.element.childrenOf.find? (fun c => localHas (lit "mesh") c.tagOf) with
      | none => o.element
      | some mesh =>
        match mesh.childrenOf.find? (fun c => localHas (lit "triangles") c.tagOf) with
        | none => o.element
        | some _ =>
          XElem.mk o.element.tagOf o.element.attrsOf
            (updateFirstChild (fun c => localHas (lit "mesh") c.tagOf)
              (fun m => XElem.mk m.tagOf m.attrsOf
                (updateFirstChild (fun c => localHas (lit "triangles") c.tagOf)
                  (tagTriangles gid) m.childrenOf))
              o.element.childrenOf)

/-- `add_triangle_colors` over the whole catalog. -/
def add_triangle_colors (objects : List ObjInfo) (cmap : List (Text × Text)) : List XElem :=
  objects.map (add_triangle_colors_obj cmap)

/-- The per-item body of `add_build_materials`: set `materialid` on a
namespace-tolerant `item` child whose `partnumber` (default empty) is a
key of the mapping. -/
def tagBuildItem (cmap : List (Text × Text)) (it : XElem) : XElem :=
  if localHas (lit "item") it.tagOf then
    match lookupName cmap (getAttrD it (lit "partnumber") []) with
    | some materialid => setAttr it (lit "materialid") materialid
    | none => it
  else it

/-- `add_build_materials`: find the build element (its absence is
reported, not an error) and tag its items. -/
def add_build_materials (root : XElem) (cmap : List (Text × Text)) : XElem :=
  match root.childrenOf.find? (fun c => localHas (lit "build") c.tagOf) with
  | none => root
  | some _ =>
    XElem.mk root.tagOf root.attrsOf
      (updateFirstChild (fun c => localHas (lit "build") c.tagOf)
        (fun b => XElem.mk b.tagOf b.attrsOf (b.childrenOf.map (tagBuildItem cmap)))
        root.childrenOf)

/-- The catalog entry `get_objects_info` builds for one object element. -/
def mkObjInfo (obj : XElem) : ObjInfo :=
  ⟨obj, getAttr obj (lit "id"), getAttrD obj (lit "name") [],
    getAttrD obj (lit "type") (lit "model"), is_assembly obj⟩

/-- The tree-level body of `add_colors_to_xml_string` after parsing:
catalog the objects (structural error when resources is absent),
resolve the color mode, insert the colorgroups, tag the triangles of
the cataloged objects, and tag the build items.  The source mutates
the object elements through the catalog's aliases into the tree; here
the same update is applied to the object children of the resources
element, which are exactly the cataloged elements. -/
def add_colors_on_root (root : XElem) (color_mode : Text) : Except Text XElem := do
  let objects ← get_objects_info root
  let object_names := (objects.filter (fun o => !o.isAsm)).map ObjInfo.name
  let detected_mode := detect_color_mode object_names
  let final_color_mode := if color_mode = lit "auto" then detected_mode else color_mode
  match root.childrenOf.findIdx? (fun c => localHas (lit "resources") c.tagOf) with
  | none => .error (lit "Cannot find resources element")
  | some ri =>
    match root.childrenOf.get? ri with
    | none => .error (lit "Cannot find resources element")
    | some resources =>
      let rmap := insert_colorgroups resources final_color_mode
      let resources3 := XElem.mk rmap.1.tagOf rmap.1.attrsOf
        (rmap.1.childrenOf.map (fun c =>
          if localHas (lit "object") c.tagOf then
            add_triangle_colors_obj rmap.2 (mkObjInfo c)
          else c))
      let root2 := XElem.mk root.tagOf root.attrsOf
        ((root.childrenOf.take ri) ++ resources3 :: (root.childrenOf.drop (ri + 1)))
      .ok (add_build_materials root2 rmap.2)

/-!
## Colorgroup insertion characterization (claim C2)
-/

theorem insertAt_append (g : XElem) : ∀ (a b : List XElem),
    insertAt a.length g (a ++ b) = a ++ g :: b := by
  intro a
  induction a with
  | nil => intro b; rfl
  | cons x xs ih =>
    intro b
    show x :: insertAt xs.length g (xs ++ b) = x :: (xs ++ g :: b)
    rw [ih b]

theorem foldl_insertAt_reverse (i : Nat) : ∀ (gs l : List XElem), i ≤ l.length →
    gs.reverse.foldl (fun cs g => insertAt i g cs) l = l.take i ++ gs ++ l.drop i := by
  intro gs
  induction gs with
  | nil =>
    intro l hi
    simp
  | cons g gs0 ih =>
    intro l hi
    rw [List.reverse_cons, List.foldl_append, ih l hi]
    simp only [List.foldl_cons, List.foldl_nil]
    have htl : (l.take i).length = i := List.length_take_of_le hi
    calc insertAt i g (l.take i ++ gs0 ++ l.drop i)
        = insertAt (l.take i).length g (l.take i ++ (gs0 ++ l.drop i)) := by
          rw [htl, List.append_assoc]
      _ = l.take i ++ g :: (gs0 ++ l.drop i) := insertAt_append g (l.take i) _
      _ = l.take i ++ (g :: gs0) ++ l.drop i := by simp

theorem foldl_snoc_reverse : ∀ (gs l : List XElem),
    gs.reverse.foldl (fun cs g => cs ++ [g]) l = l ++ gs.reverse := by
  intro gs
  induction gs with
  | nil => intro l; simp
  | cons g gs0 ih =>
    intro l
    rw [List.reverse_cons, List.foldl_append, ih l]
    simp

/-- Claim C2 (amended): `insert_colorgroups` keeps the tag and the
attributes of the resources element; when a namespace-tolerant
`object` child exists at index `i`, the new children are the old ones
with the palette's colorgroups — one per palette entry, in palette
declaration order — spliced in immediately before index `i`; when no
object child exists the colorgroups are appended at the end in
REVERSE palette order.  The returned mapping pairs each palette name
with its fixed mode-specific id, and the synthesized colorgroups carry
the fixed ids and ARGB hex strings of the mode. -/
theorem insert_colorgroups_characterization (resources : XElem) (color_mode : Text) :
    (insert_colorgroups resources color_mode).1.tagOf = resources.tagOf ∧
    (insert_colorgroups resources color_mode).1.attrsOf = resources.attrsOf ∧
    (∀ i, resources.childrenOf.findIdx? (fun c => localHas (lit "object") c.tagOf) = some i →
      (insert_colorgroups resources color_mode).1.childrenOf =
        resources.childrenOf.take i ++ colorgroupElems color_mode ++
          resources.childrenOf.drop i) ∧
    (resources.childrenOf.findIdx? (fun c => localHas (lit "object") c.tagOf) = none →
      (insert_colorgroups resources color_mode).1.childrenOf =
        resources.childrenOf ++ (colorgroupElems color_mode).reverse) ∧
    (insert_colorgroups resources color_mode).2 =
      (colorsFor color_mode).map (fun p => (p.1, get_colorgroup_id p.1 color_mode)) ∧
    (colorgroupElems (lit "rybw")).map
        (fun e => (getAttr e (lit "id"), e.childrenOf.map (fun c => getAttr c (lit "color")))) =
      [(some (lit "1"), [some (lit "#FF0000FF")]), (some (lit "2"), [some (lit "#FFFF00FF")]),
        (some (lit "3"), [some (lit "#0000FFFF")]), (some (lit "4"), [some (lit "#FFFFFFFF")])] ∧
    (colorgroupElems (lit "cmyw")).map
        (fun e => (getAttr e (lit "id"), e.childrenOf.map (fun c => getAttr c (lit "color")))) =
      [(some (lit "1"), [some (lit "#00FFFFFF")]), (some (lit "2"), [some (lit "#FF00FFFF")]),
        (some (lit "3"), [some (lit "#FFFF00FF")]), (some (lit "4"), [some (lit "#FFFFFFFF")])] := by
  refine ⟨rfl, rfl, ?_, ?_, rfl, by decide, by decide⟩
  · intro i hi
    have hlt : i < resources.childrenOf.length :=
      (List.findIdx?_eq_some_iff_findIdx_eq.mp hi).1
    show (colorgroupElems color_mode).reverse.foldl
        (fun cs g =>
          match resources.childrenOf.findIdx? (fun c => localHas (lit "object") c.tagOf) with
          | some i => insertAt i g cs
          | none => cs ++ [g])
        resources.childrenOf = _
    simp only [hi]
    exact foldl_insertAt_reverse i (colorgroupElems color_mode) resources.childrenOf
      (Nat.le_of_lt hlt)
  · intro hnone
    show (colorgroupElems color_mode).reverse.foldl
        (fun cs g =>
          match resources.childrenOf.findIdx? (fun c => localHas (lit "object") c.tagOf) with
          | some i => insertAt i g cs
          | none => cs ++ [g])
        resources.childrenOf = _
    simp only [hnone]
    exact foldl_snoc_reverse (colorgroupElems color_mode) resources.childrenOf

/-- A resources element with no object child, used to refute the
palette-order claim for the append path. -/
def resNoObject : XElem :=
  XElem.mk (lit "resources") [] [XElem.mk (lit "basematerials") [] []]

/-- Counterexample to claim C2 as stated: on a resources element with
no object child the colorgroups are appended in reverse palette order,
so the children are not the old children followed by the colorgroups
in palette order (the first appended colorgroup carries id 4, not 1). -/
theorem insert_colorgroups_append_not_palette_order :
    (insert_colorgroups resNoObject (lit "rybw")).1.childrenOf ≠
      resNoObject.childrenOf ++ colorgroupElems (lit "rybw") := by
  intro h
  have h2 := congrArg (List.map (fun e => getAttr e (lit "id"))) h
  revert h2
  decide

/-- Witness for the splice case of the colorgroup insertion theorem at
a concrete resources element whose second child is an object. -/
def resWithObject : XElem :=
  XElem.mk (lit "resources") []
    [XElem.mk (lit "basematerials") [] [], XElem.mk (lit "object") [(lit "id", lit "1")] []]

theorem insert_colorgroups_characterization_witness :
    resWithObject.childrenOf.findIdx? (fun c => localHas (lit "object") c.tagOf) = some 1 ∧
    (insert_colorgroups resWithObject (lit "rybw")).1.childrenOf =
      resWithObject.childrenOf.take 1 ++ colorgroupElems (lit "rybw") ++
        resWithObject.childrenOf.drop 1 :=
  ⟨by decide,
    (insert_colorgroups_characterization resWithObject (lit "rybw")).2.2.1 1 (by decide)⟩

/-!
## Triangle and build tagging (claim C4)
-/

theorem find?_split {p : α → Bool} :
    ∀ {l : List α} {a : α}, l.find? p = some a →
      p a = true ∧ ∃ pre suf, l = pre ++ a :: suf ∧ ∀ x ∈ pre, p x = false := by
  intro l
  induction l with
  | nil => intro a h; simp at h
  | cons c cs ih =>
    intro a h
    by_cases hc : p c = true
    · rw [List.find?_cons_of_pos _ hc] at h
      simp only [Option.some.injEq] at h
      subst h
      exact ⟨hc, [], cs, rfl, by simp⟩
    · have hcf : p c = false := by
        revert hc
        cases p c <;> simp
      rw [List.find?_cons_of_neg _ (by simp [hcf])] at h
      obtain ⟨hpa, pre, suf, heq, hpre⟩ := ih h
      refine ⟨hpa, c :: pre, suf, by rw [heq]; rfl, ?_⟩
      intro x hx
      rcases List.mem_cons.mp hx with rfl | hx0
      · exact hcf
      · exact hpre x hx0

theorem updateFirstChild_split (p : XElem → Bool) (f : XElem → XElem) :
    ∀ (pre : List XElem) (c : XElem) (suf : List XElem),
      (∀ x ∈ pre, p x = false) → p c = true →
      updateFirstChild p f (pre ++ c :: suf) = pre ++ f c :: suf := by
  intro pre
  induction pre with
  | nil =>
    intro c suf _ hc
    simp [updateFirstChild, hc]
  | cons x xs ih =>
    intro c suf hpre hc
    have hx : p x = false := hpre x (by simp)
    show updateFirstChild p f (x :: (xs ++ c :: suf)) = x :: (xs ++ f c :: suf)
    rw [updateFirstChild]
    simp only [hx]
    rw [ih c suf (fun y hy => hpre y (List.mem_cons_of_mem x hy)) hc]
    simp

theorem setAttr_tagOf (e : XElem) (k v : Text) : (setAttr e k v).tagOf = e.tagOf := rfl

theorem setAttr_childrenOf (e : XElem) (k v : Text) :
    (setAttr e k v).childrenOf = e.childrenOf := rfl

theorem find?_map_setAttrList {k v : Text} :
    ∀ (attrs : List (Text × Text)), attrs.any (fun p => p.1 = k) = true →
      (attrs.map (fun p => if p.1 = k then (k, v) else p)).find? (fun p => p.1 = k) =
        some (k, v) := by
  intro attrs
  induction attrs with
  | nil => intro h; simp at h
  | cons q qs ih =>
    intro hany
    by_cases hq : q.1 = k
    · rw [List.map_cons, if_pos hq]
      exact List.find?_cons_of_pos _ (by simp)
    · rw [List.map_cons, if_neg hq]
      rw [List.find?_cons_of_neg _ (by simp [hq])]
      apply ih
      rw [List.any_cons] at hany
      simp only [hq] at hany
      simpa using hany

theorem find?_append_new {k v : Text} :
    ∀ (attrs : List (Text × Text)), (∀ q ∈ attrs, ¬ q.1 = k) →
      (attrs ++ [(k, v)]).find? (fun p => p.1 = k) = some (k, v) := by
  intro attrs
  induction attrs with
  | nil => simp
  | cons q qs ih =>
    intro hall
    rw [List.cons_append, List.find?_cons_of_neg _ (by simp [hall q (by simp)])]
    exact ih (fun x hx => hall x (List.mem_cons_of_mem q hx))

theorem find?_setAttrList_same (attrs : List (Text × Text)) (k v : Text) :
    (setAttrList attrs k v).find? (fun p => p.1 = k) = some (k, v) := by
  rw [setAttrList]
  by_cases hany : attrs.any (fun p => p.1 = k) = true
  · rw [if_pos hany]
    exact find?_map_setAttrList attrs hany
  · rw [if_neg hany]
    apply find?_append_new
    intro q hq he
    exact hany (List.any_eq_true.mpr ⟨q, hq, by simp [he]⟩)

theorem getAttr_setAttr_same (e : XElem) (k v : Text) :
    getAttr (setAttr e k v) k = some v := by
  rw [getAttr, setAttr]
  show ((setAttrList e.attrsOf k v).find? (fun p => p.1 = k)).map Prod.snd = some v
  rw [find?_setAttrList_same]
  rfl

theorem find?_map_setAttrList_other {k v a : Text} (hak : ¬ a = k) :
    ∀ (attrs : List (Text × Text)),
      (attrs.map (fun p => if p.1 = k then (k, v) else p)).find? (fun p => p.1 = a) =
        attrs.find? (fun p => p.1 = a) := by
  intro attrs
  induction attrs with
  | nil => rfl
  | cons q qs ih =>
    by_cases hq : q.1 = k
    · rw [List.map_cons, if_pos hq]
      rw [List.find?_cons_of_neg _ (by simp; exact fun he => hak he.symm)]
      rw [List.find?_cons_of_neg _ (by simp [hq]; intro he; exact hak he.symm)]
      exact ih
    · rw [List.map_cons, if_neg hq]
      by_cases hqa : q.1 = a
      · rw [List.find?_cons_of_pos _ (by simp [hqa]), List.find?_cons_of_pos _ (by simp [hqa])]
      · rw [List.find?_cons_of_neg _ (by simp [hqa]), List.find?_cons_of_neg _ (by simp [hqa])]
        exact ih

theorem find?_append_other {k v a : Text} (hak : ¬ a = k) (attrs : List (Text × Text)) :
    (attrs ++ [(k, v)]).find? (fun p => p.1 = a) = attrs.find? (fun p => p.1 = a) := by
  induction attrs with
  | nil =>
    simp only [List.nil_append, List.find?_nil]
    rw [List.find?_cons_of_neg _ (by simp; exact fun he => hak he.symm)]
    rfl
  | cons q qs ih =>
    by_cases hqa : q.1 = a
    · rw [List.cons_append, List.find?_cons_of_pos _ (by simp [hqa]),
        List.find?_cons_of_pos _ (by simp [hqa])]
    · rw [List.cons_append, List.find?_cons_of_neg _ (by simp [hqa]),
        List.find?_cons_of_neg _ (by simp [hqa])]
      exact ih

theorem getAttr_setAttr_other (e : XElem) (k v a : Text) (hak : ¬ a = k) :
    getAttr (setAttr e k v) a = getAttr e a := by
  rw [getAttr, setAttr]
  show ((setAttrList e.attrsOf k v).find? (fun p => p.1 = a)).map Prod.snd = _
  rw [setAttrList]
  by_cases hany : e.attrsOf.any (fun p => p.1 = k) = true
  · rw [if_pos hany, find?_map_setAttrList_other hak]
    rfl
  · rw [if_neg hany, find?_append_other hak]
    rfl

/-- Claim C4: for a cataloged non-assembly object whose name is a key
of the mapping, triangle tagging rewrites exactly the first triangles
child of the first mesh child, setting `pid` to the mapped id and `p1`
to `"0"` on every namespace-tolerant `triangle` child while leaving
every other attribute, tag, and child untouched; assemblies, unmapped
names, and objects without mesh or triangles are returned unchanged.
Build tagging sets `materialid` to the mapped id on exactly the items
whose `partnumber` attribute is a key of the mapping (the empty
default is no key), leaves every other item untouched, and an absent
build element leaves the root untouched. -/
theorem triangle_and_build_tagging (cmap : List (Text × Text)) (o : ObjInfo)
    (gid : Text) (mesh tris : XElem) (root build : XElem) :
    (o.isAsm = true → add_triangle_colors_obj cmap o = o.element) ∧
    (lookupName cmap o.name = none → add_triangle_colors_obj cmap o = o.element) ∧
    (o.element.childrenOf.find? (fun c => localHas (lit "mesh") c.tagOf) = none →
      add_triangle_colors_obj cmap o = o.element) ∧
    (o.element.childrenOf.find? (fun c => localHas (lit "mesh") c.tagOf) = some mesh →
      mesh.childrenOf.find? (fun c => localHas (lit "triangles") c.tagOf) = none →
      add_triangle_colors_obj cmap o = o.element) ∧
    (o.isAsm = false →
      lookupName cmap o.name = some gid →
      o.element.childrenOf.find? (fun c => localHas (lit "mesh") c.tagOf) = some mesh →
      mesh.childrenOf.find? (fun c => localHas (lit "triangles") c.tagOf) = some tris →
      ∃ pre1 suf1 pre2 suf2 tris2,
        o.element.childrenOf = pre1 ++ mesh :: suf1 ∧
        (∀ x ∈ pre1, localHas (lit "mesh") x.tagOf = false) ∧
        mesh.childrenOf = pre2 ++ tris :: suf2 ∧
        (∀ x ∈ pre2, localHas (lit "triangles") x.tagOf = false) ∧
        add_triangle_colors_obj cmap o =
          XElem.mk o.element.tagOf o.element.attrsOf
            (pre1 ++ XElem.mk mesh.tagOf mesh.attrsOf (pre2 ++ tris2 :: suf2) :: suf1) ∧
        tris2.tagOf = tris.tagOf ∧
        tris2.attrsOf = tris.attrsOf ∧
        tris2.childrenOf.length = tris.childrenOf.length ∧
        (∀ k t, tris.childrenOf.get? k = some t →
          (localHas (lit "triangle") t.tagOf = false →
            tris2.childrenOf.get? k = some t) ∧
          (localHas (lit "triangle") t.tagOf = true →
            ∃ t2, tris2.childrenOf.get? k = some t2 ∧
              getAttr t2 (lit "pid") = some gid ∧
              getAttr t2 (lit "p1") = some (lit "0") ∧
              t2.tagOf = t.tagOf ∧
              t2.childrenOf = t.childrenOf ∧
              (∀ a, ¬ a = lit "pid" → ¬ a = lit "p1" → getAttr t2 a = getAttr t a)))) ∧
    (root.childrenOf.find? (fun c => localHas (lit "build") c.tagOf) = none →
      add_build_materials root cmap = root) ∧
    (root.childrenOf.find? (fun c => localHas (lit "build") c.tagOf) = some build →
      ∃ pre suf build2,
        root.childrenOf = pre ++ build :: suf ∧
        (∀ x ∈ pre, localHas (lit "build") x.tagOf = false) ∧
        add_build_materials root cmap =
          XElem.mk root.tagOf root.attrsOf (pre ++ build2 :: suf) ∧
        build2.tagOf = build.tagOf ∧
        build2.attrsOf = build.attrsOf ∧
        build2.childrenOf.length = build.childrenOf.length ∧
        (∀ k it, build.childrenOf.get? k = some it →
          (localHas (lit "item") it.tagOf = false →
            build2.childrenOf.get? k = some it) ∧
          (lookupName cmap (getAttrD it (lit "partnumber") []) = none →
            build2.childrenOf.get? k = some it) ∧
          (∀ mid, localHas (lit "item") it.tagOf = true →
            lookupName cmap (getAttrD it (lit "partnumber") []) = some mid →
            ∃ it2, build2.childrenOf.get? k = some it2 ∧
              getAttr it2 (lit "materialid") = some mid ∧
              it2.tagOf = it.tagOf ∧
              it2.childrenOf = it.childrenOf ∧
              (∀ a, ¬ a = lit "materialid" → getAttr it2 a = getAttr it a)))) := by
  refine ⟨?_, ?_, ?_, ?_, ?_, ?_, ?_⟩
  · intro h
    rw [add_triangle_colors_obj, if_pos h]
  · intro h
    rw [add_triangle_colors_obj]
    by_cases ha : o.isAsm <;> simp [ha, h]
  · intro h
    rw [add_triangle_colors_obj]
    by_cases ha : o.isAsm
    · simp [ha]
    · simp only [ha, if_false, Bool.false_eq_true]
      cases hl : lookupName cmap o.name <;> simp [h]
  · intro hm ht
    rw [add_triangle_colors_obj]
    by_cases ha : o.isAsm
    · simp [ha]
    · simp only [ha, if_false, Bool.false_eq_true]
      cases hl : lookupName cmap o.name with
      | none => rfl
      | some g => simp [hm, ht]
  · intro ha hl hm ht
    obtain ⟨hpm, pre1, suf1, heq1, hpre1⟩ := find?_split hm
    obtain ⟨hpt, pre2, suf2, heq2, hpre2⟩ := find?_split ht
    refine ⟨pre1, suf1, pre2, suf2, tagTriangles gid tris, heq1, hpre1, heq2, hpre2, ?_,
      rfl, rfl, by simp [tagTriangles, XElem.childrenOf], ?_⟩
    · rw [add_triangle_colors_obj]
      simp only [ha, if_false, Bool.false_eq_true, hl, hm, ht]
      rw [heq1, updateFirstChild_split _ _ pre1 mesh suf1 hpre1 hpm]
      rw [heq2, updateFirstChild_split _ _ pre2 tris suf2 hpre2 hpt]
    · intro k t hk
      constructor
      · intro hloc
        rw [tagTriangles]
        show (tris.childrenOf.map _).get? k = some t
        rw [List.get?_map, hk]
        simp [hloc]
      · intro hloc
        rw [tagTriangles]
        refine ⟨setAttr (setAttr t (lit "pid") gid) (lit "p1") (lit "0"), ?_, ?_, ?_, rfl, rfl, ?_⟩
        · show (tris.childrenOf.map _).get? k = _
          rw [List.get?_map, hk]
          simp [hloc]
        · rw [getAttr_setAttr_other _ _ _ _ (by decide)]
          exact getAttr_setAttr_same t (lit "pid") gid
        · exact getAttr_setAttr_same _ (lit "p1") (lit "0")
        · intro a hap ha1
          rw [getAttr_setAttr_other _ _ _ _ ha1, getAttr_setAttr_other _ _ _ _ hap]
  · intro h
    rw [add_build_materials, h]
  · intro h
    obtain ⟨hpb, pre, suf, heq, hpre⟩ := find?_split h
    refine ⟨pre, suf,
      XElem.mk build.tagOf build.attrsOf (build.childrenOf.map (tagBuildItem cmap)),
      heq, hpre, ?_, rfl, rfl, by simp [XElem.childrenOf], ?_⟩
    · rw [add_build_materials, h]
      rw [heq, updateFirstChild_split _ _ pre build suf hpre hpb]
    · intro k it hk
      refine ⟨?_, ?_, ?_⟩
      · intro hloc
        show (build.childrenOf.map _).get? k = some it
        rw [List.get?_map, hk]
        simp [tagBuildItem, hloc]
      · intro hnone
        show (build.childrenOf.map _).get? k = some it
        rw [List.get?_map, hk]
        by_cases hloc : localHas (lit "item") it.tagOf <;> simp [tagBuildItem, hloc, hnone]
      · intro mid hloc hsome
        refine ⟨setAttr it (lit "materialid") mid, ?_, getAttr_setAttr_same _ _ _, rfl, rfl, ?_⟩
        · show (build.childrenOf.map _).get? k = _
          rw [List.get?_map, hk]
          simp [tagBuildItem, hloc, hsome]
        · intro a ham
          exact getAttr_setAttr_other _ _ _ _ ham

/-- A concrete triangle element for the tagging witness. -/
def triW : XElem := XElem.mk (lit "triangle") [(lit "v1", lit "0")] []

/-- A concrete triangles element for the tagging witness. -/
def trisW : XElem := XElem.mk (lit "triangles") [] [triW, triW]

/-- A concrete mesh element for the tagging witness. -/
def meshW : XElem := XElem.mk (lit "mesh") [] [trisW]

/-- A concrete Red-named object element for the tagging witness. -/
def objElemW : XElem :=
  XElem.mk (lit "object") [(lit "id", lit "1"), (lit "name", lit "Red")] [meshW]

/-- The catalog entry of the concrete object. -/
def objInfoW : ObjInfo := mkObjInfo objElemW

/-- The rybw name-to-id mapping. -/
def cmapW : List (Text × Text) :=
  (colorsFor (lit "rybw")).map (fun p => (p.1, get_colorgroup_id p.1 (lit "rybw")))

/-- A concrete build element with one White-part-number item. -/
def buildW : XElem :=
  XElem.mk (lit "build") []
    [XElem.mk (lit "item") [(lit "objectid", lit "1"), (lit "partnumber", lit "White")] []]

/-- A concrete root for the build tagging witness. -/
def rootW : XElem :=
  XElem.mk (lit "model") [] [XElem.mk (lit "resources") [] [objElemW], buildW]

theorem triangle_and_build_tagging_witness :
    objInfoW.isAsm = false ∧
    lookupName cmapW objInfoW.name = some (lit "1") ∧
    (∃ pre1 suf1 pre2 suf2 tris2,
      objInfoW.element.childrenOf = pre1 ++ meshW :: suf1 ∧
      (∀ x ∈ pre1, localHas (lit "mesh") x.tagOf = false) ∧
      meshW.childrenOf = pre2 ++ trisW :: suf2 ∧
      (∀ x ∈ pre2, localHas (lit "triangles") x.tagOf = false) ∧
      add_triangle_colors_obj cmapW objInfoW =
        XElem.mk objInfoW.element.tagOf objInfoW.element.attrsOf
          (pre1 ++ XElem.mk meshW.tagOf meshW.attrsOf (pre2 ++ tris2 :: suf2) :: suf1) ∧
      tris2.tagOf = trisW.tagOf ∧
      tris2.attrsOf = trisW.attrsOf ∧
      tris2.childrenOf.length = trisW.childrenOf.length ∧
      (∀ k t, trisW.childrenOf.get? k = some t →
        (localHas (lit "triangle") t.tagOf = false →
          tris2.childrenOf.get? k = some t) ∧
        (localHas (lit "triangle") t.tagOf = true →
          ∃ t2, tris2.childrenOf.get? k = some t2 ∧
            getAttr t2 (lit "pid") = some (lit "1") ∧
            getAttr t2 (lit "p1") = some (lit "0") ∧
            t2.tagOf = t.tagOf ∧
            t2.childrenOf = t.childrenOf ∧
            (∀ a, ¬ a = lit "pid" → ¬ a = lit "p1" → getAttr t2 a = getAttr t a)))) ∧
    (∃ pre suf build2,
      rootW.childrenOf = pre ++ buildW :: suf ∧
      (∀ x ∈ pre, localHas (lit "build") x.tagOf = false) ∧
      add_build_materials rootW cmapW =
        XElem.mk rootW.tagOf rootW.attrsOf (pre ++ build2 :: suf) ∧
      build2.tagOf = buildW.tagOf ∧
      build2.attrsOf = buildW.attrsOf ∧
      build2.childrenOf.length = buildW.childrenOf.length ∧
      (∀ k it, buildW.childrenOf.get? k = some it →
        (localHas (lit "item") it.tagOf = false →
          build2.childrenOf.get? k = some it) ∧
        (lookupName cmapW (getAttrD it (lit "partnumber") []) = none →
          build2.childrenOf.get? k = some it) ∧
        (∀ mid, localHas (lit "item") it.tagOf = true →
          lookupName cmapW (getAttrD it (lit "partnumber") []) = some mid →
          ∃ it2, build2.childrenOf.get? k = some it2 ∧
            getAttr it2 (lit "materialid") = some mid ∧
            it2.tagOf = it.tagOf ∧
            it2.childrenOf = it.childrenOf ∧
            (∀ a, ¬ a = lit "materialid" → getAttr it2 a = getAttr it a)))) :=
  ⟨rfl, rfl,
    (triangle_and_build_tagging cmapW objInfoW (lit "1") meshW trisW rootW
      buildW).2.2.2.2.1 rfl rfl rfl rfl,
    (triangle_and_build_tagging cmapW objInfoW (lit "1") meshW trisW rootW
      buildW).2.2.2.2.2.2 rfl⟩

/-!
## Archive-level orchestration of `safe_fix_3mf_names`

A ZIP archive read is a list of entry names with their contents; an
invalid archive is `none` (the `zipfile.ZipFile` constructor raises).
Python's dict semantics for `files_data` are embedded by
insert-or-overwrite folds, and the colorize stage
(`add_colors_to_xml_string`, which parses the text and may raise) is a
function parameter returning `Except`.  The outermost
`try/except Exception` of the source catches everything and returns
normally, leaving the file untouched; this is embedded by
`safe_fix_3mf_names` returning `.ok` with the unchanged disk state
whenever `safe_fix_body` returns an error.
-/

/-- An archive in memory: entry names paired with entry bytes. -/
abbrev Zip := List (Text × Text)

/-- `files_data[name] = data`: Python dict insertion. -/
def dictInsert (d : Zip) (k v : Text) : Zip := setAttrList d k v

/-- Read every entry into the `files_data` dict, in stored order. -/
def zipToDict (entries : Zip) : Zip :=
  entries.foldl (fun d p => dictInsert d p.1 p.2) []

/-- The model-entry search of `safe_fix_3mf_names`: the first stored
name that ends with `.model` and contains `3D/`. -/
def findModelFile (files : Zip) : Option Text :=
  (files.map Prod.fst).find?
    (fun n => endsWithText (lit ".model") n && containsSub (lit "3D/") n)

/-- Python `files_data[name]` lookup. -/
def dictGet (d : Zip) (k : Text) : Option Text :=
  (d.find? (fun p => p.1 = k)).map Prod.snd

/-- The `try` block of `safe_fix_3mf_names`: read the archive, find the
model entry, run the textual name-fix pass, then either the colorize
stage (whose failure is caught in place, leaving `files_data`
unchanged) or the plain re-encode, and produce the files to write. -/
def safe_fix_body (file : Option Zip) (slot_names : List Text) (create_assembly : Bool)
    (enable_colors : Bool) (color_mode : Option Text)
    (colorize : Text → Text → Except Text Text) : Except Text Zip :=
  match file with
  | none => .error (lit "BadZipFile")
  | some entries =>
    let files_data := zipToDict entries
    let files_data2 :=
      match findModelFile files_data with
      | none => files_data
      | some model_file =>
        match dictGet files_data model_file with
        | none => files_data
        | some original =>
          let content := fixNamesContent original slot_names create_assembly
          if enable_colors then
            let actual_color_mode :=
              match color_mode with
              | none => detect_color_mode slot_names
              | some m => m
            match colorize content actual_color_mode with
            | .ok modified => dictInsert files_data model_file modified
            | .error _ => files_data
          else dictInsert files_data model_file content
    .ok files_data2

/-- `safe_fix_3mf_names`: the whole operation, outer exception handler
included.  The result is the on-disk archive after the call: the
rewritten files on success, the untouched input when the body raised. -/
def safe_fix_3mf_names (file : Option Zip) (slot_names : List Text) (create_assembly : Bool)
    (enable_colors : Bool) (color_mode : Option Text)
    (colorize : Text → Text → Except Text Text) : Except Text (Option Zip) :=
  match safe_fix_body file slot_names create_assembly enable_colors color_mode colorize with
  | .ok d => .ok (some d)
  | .error _ => .ok file

theorem mem_dictInsert_other {d : Zip} {n c k v : Text} (h : (n, c) ∈ d) (hnk : ¬ n = k) :
    (n, c) ∈ dictInsert d k v := by
  rw [dictInsert, setAttrList]
  by_cases hany : d.any (fun p => p.1 = k) = true
  · rw [if_pos hany]
    have : (fun p => if p.1 = k then (k, v) else p) (n, c) = (n, c) := by
      simp [hnk]
    rw [← this]
    exact List.mem_map_of_mem _ h
  · rw [if_neg hany]
    exact List.mem_append_left _ h

/-- Claim C9: every entry of the read archive other than the selected
model entry is present, byte-identical, in the written archive, for
every slot list, flag combination, and colorize behavior. -/
theorem non_model_entries_roundtrip (entries : Zip) (slots : List Text)
    (ca ec : Bool) (cm : Option Text) (colorize : Text → Text → Except Text Text)
    (n c : Text) (hin : (n, c) ∈ zipToDict entries)
    (hnm : findModelFile (zipToDict entries) ≠ some n) :
    ∃ d, safe_fix_3mf_names (some entries) slots ca ec cm colorize = .ok (some d) ∧
      (n, c) ∈ d := by
  simp only [safe_fix_3mf_names, safe_fix_body]
  refine ⟨_, rfl, ?_⟩
  cases hmf : findModelFile (zipToDict entries) with
  | none => simpa [hmf] using hin
  | some mf =>
    have hneq : ¬ n = mf := fun he => hnm (he ▸ hmf)
    simp only [hmf]
    cases hget : dictGet (zipToDict entries) mf with
    | none => simpa using hin
    | some original =>
      simp only []
      by_cases hec : ec = true
      · simp only [hec, if_true]
        cases hcz : colorize (fixNamesContent original slots ca)
            (match cm with | none => detect_color_mode slots | some m => m) with
        | ok modified => exact mem_dictInsert_other hin hneq
        | error e => exact hin
      · have : ec = false := by
          revert hec
          cases ec <;> simp
        simp only [this, Bool.false_eq_true, if_false]
        exact mem_dictInsert_other hin hneq

/-- Witness archive: a model entry plus one auxiliary entry. -/
def zipW : Zip :=
  [(lit "3D/3dmodel.model", cw3), (lit "[Content_Types].xml", lit "<Types/>")]

theorem non_model_entries_roundtrip_witness :
    (lit "[Content_Types].xml", lit "<Types/>") ∈ zipToDict zipW ∧
    findModelFile (zipToDict zipW) ≠ some (lit "[Content_Types].xml") ∧
    ∃ d, safe_fix_3mf_names (some zipW) sw3 true true none (fun c _ => .ok c) =
        .ok (some d) ∧
      (lit "[Content_Types].xml", lit "<Types/>") ∈ d :=
  ⟨by decide, by decide,
    non_model_entries_roundtrip zipW sw3 true true none (fun c _ => .ok c)
      (lit "[Content_Types].xml") (lit "<Types/>") (by decide) (by decide)⟩

/-- Claim C10: the model entry is the first stored name ending in
`.model` and containing `3D/`; when no such name exists the operation
succeeds and rewrites the archive with every entry unchanged. -/
theorem model_entry_selection (entries : Zip) (slots : List Text)
    (ca ec : Bool) (cm : Option Text) (colorize : Text → Text → Except Text Text) :
    (∀ mf, findModelFile (zipToDict entries) = some mf →
      (endsWithText (lit ".model") mf && containsSub (lit "3D/") mf) = true ∧
      ∃ pre suf, (zipToDict entries).map Prod.fst = pre ++ mf :: suf ∧
        ∀ x ∈ pre, (endsWithText (lit ".model") x && containsSub (lit "3D/") x) = false) ∧
    (findModelFile (zipToDict entries) = none →
      safe_fix_3mf_names (some entries) slots ca ec cm colorize =
        .ok (some (zipToDict entries))) := by
  constructor
  · intro mf hmf
    rw [findModelFile] at hmf
    obtain ⟨hp, pre, suf, heq, hpre⟩ := find?_split hmf
    exact ⟨hp, pre, suf, heq, hpre⟩
  · intro hnone
    simp only [safe_fix_3mf_names, safe_fix_body, hnone]

/-- Witness archives for the model-entry selection theorem: one whose
second entry is the model (the first entry does not qualify), and one
with no qualifying entry at all. -/
def zipNoModel : Zip := [(lit "meta.txt", lit "x"), (lit "3D/readme.txt", lit "y")]

theorem model_entry_selection_witness :
    findModelFile (zipToDict zipW) = some (lit "3D/3dmodel.model") ∧
    ((endsWithText (lit ".model") (lit "3D/3dmodel.model") &&
        containsSub (lit "3D/") (lit "3D/3dmodel.model")) = true ∧
      ∃ pre suf, (zipToDict zipW).map Prod.fst = pre ++ lit "3D/3dmodel.model" :: suf ∧
        ∀ x ∈ pre,
          (endsWithText (lit ".model") x && containsSub (lit "3D/") x) = false) ∧
    findModelFile (zipToDict zipNoModel) = none ∧
    safe_fix_3mf_names (some zipNoModel) [] true true none (fun c _ => .ok c) =
      .ok (some (zipToDict zipNoModel)) :=
  ⟨by decide,
    (model_entry_selection zipW [] true true none (fun c _ => .ok c)).1
      (lit "3D/3dmodel.model") (by decide),
    by decide,
    (model_entry_selection zipNoModel [] true true none (fun c _ => .ok c)).2 (by decide)⟩

/-!
## Error handling (claims C1 and C6)
-/

theorem splitOnChar_no_mem {sep : Char} :
    ∀ {s : Text} {seg : Text}, seg ∈ splitOnChar sep s → sep ∉ seg := by
  intro s
  induction s with
  | nil =>
    intro seg h
    rw [splitOnChar] at h
    simp only [List.mem_singleton] at h
    subst h
    simp
  | cons c cs ih =>
    intro seg h
    rw [splitOnChar] at h
    by_cases hc : c = sep
    · simp only [hc, if_pos rfl] at h
      rcases List.mem_cons.mp h with rfl | h0
      · simp
      · exact ih h0
    · simp only [hc, if_false] at h
      cases hs : splitOnChar sep cs with
      | nil => exact absurd hs (splitOnChar_ne_nil sep cs)
      | cons t ts =>
        rw [hs] at h
        rcases List.mem_cons.mp h with rfl | h0
        · intro hm
          rcases List.mem_cons.mp hm with rfl | hm0
          · exact hc rfl
          · exact ih (hs ▸ List.mem_cons_self t ts) hm0
        · exact ih (hs ▸ List.mem_cons_of_mem t h0)

theorem stripChar_subset {c : Char} {t : Text} {d : Char} (h : d ∈ stripChar c t) : d ∈ t := by
  rw [stripChar] at h
  rw [List.mem_reverse] at h
  have h1 := List.dropWhile_subset (fun d => d = c) h
  rw [List.mem_reverse] at h1
  exact List.dropWhile_subset (fun d => d = c) h1

theorem localHas_resources_of_exact {tag : Text} (h : tag = lit "resources") :
    localHas (lit "resources") tag = true := by
  subst h
  decide

theorem localHas_resources_qualified (ns : Text) (hns : '\x7d' ∉ ns) :
    localHas (lit "resources") ('\x7b' :: (ns ++ '\x7d' :: lit "resources")) = true := by
  rw [localHas]
  have hsplit : splitOnChar '\x7d' ('\x7b' :: (ns ++ '\x7d' :: lit "resources")) =
      ('\x7b' :: ns) :: splitOnChar '\x7d' (lit "resources") := by
    have heq : ('\x7b' :: (ns ++ '\x7d' :: lit "resources") : Text) =
        ('\x7b' :: ns) ++ '\x7d' :: lit "resources" := by simp
    rw [heq]
    apply splitOnChar_append_sep
    intro hm
    rcases List.mem_cons.mp hm with he | hm0
    · exact absurd he (by decide)
    · exact hns hm0
  rw [hsplit]
  have hres : splitOnChar '\x7d' (lit "resources") = [lit "resources"] := by decide
  rw [hres]
  simp


theorem rootTagNamespace_no_brace (root : XElem) : '\x7d' ∉ rootTagNamespace root := by
  rw [rootTagNamespace]
  by_cases hbr : decide ('\x7d' ∈ root.tagOf) = true
  · rw [if_pos hbr]
    intro hm
    have hm2 := stripChar_subset hm
    cases hh : (splitOnChar '\x7d' root.tagOf).headD [] with
    | nil =>
      rw [hh] at hm2
      simp at hm2
    | cons x xs =>
      rw [hh] at hm2
      have hmem : (x :: xs) ∈ splitOnChar '\x7d' root.tagOf := by
        cases hsp : splitOnChar '\x7d' root.tagOf with
        | nil => exact absurd hsp (splitOnChar_ne_nil _ _)
        | cons t ts =>
          rw [hsp] at hh
          simp only [List.headD_cons] at hh
          rw [← hh]
          exact List.mem_cons_self _ _
      exact splitOnChar_no_mem hmem hm2
  · rw [if_neg hbr]
    simp

theorem nsQualifiedResources_none {root : XElem}
    (hall : ∀ c ∈ root.childrenOf, localHas (lit "resources") c.tagOf = false) :
    nsQualifiedResources root = none := by
  rw [nsQualifiedResources]
  by_cases htns : rootTagNamespace root ≠ []
  · rw [if_pos htns, List.find?_eq_none]
    intro c hc he
    have hloc : localHas (lit "resources") c.tagOf = true := by
      rw [show c.tagOf = '\x7b' :: (rootTagNamespace root ++ '\x7d' :: lit "resources")
        from by simpa using he]
      exact localHas_resources_qualified _ (rootTagNamespace_no_brace root)
    rw [hall c hc] at hloc
    exact absurd hloc (by simp)
  · rw [if_neg htns]

theorem findResources_none {root : XElem}
    (hall : ∀ c ∈ root.childrenOf, localHas (lit "resources") c.tagOf = false) :
    findResources root = none := by
  rw [findResources]
  have h1 : root.childrenOf.find? (fun c => c.tagOf = lit "resources") = none := by
    rw [List.find?_eq_none]
    intro c hc he
    have hloc : localHas (lit "resources") c.tagOf = true :=
      localHas_resources_of_exact (by simpa using he)
    rw [hall c hc] at hloc
    exact absurd hloc (by simp)
  rw [h1, nsQualifiedResources_none hall, List.find?_eq_none]
  intro c hc he
  rw [hall c hc] at he
  exact absurd he (by simp)

/-- Counterexample to claim C6 as stated: invoking
`safe_fix_3mf_names` on an input that is not a valid archive is a
structural error inside the body, yet the operation returns normally
(`.ok`) with the file untouched — nothing propagates to the caller. -/
theorem structural_error_swallowed_counterexample :
    safe_fix_body none [] true true none (fun c _ => .ok c) = .error (lit "BadZipFile") ∧
    safe_fix_3mf_names none [] true true none (fun c _ => .ok c) = .ok none :=
  ⟨rfl, rfl⟩

/-- Claim C6 (amended): inside `colorize`
(`add_colors_to_xml_string`), the absence of a `resources` child of
the root is a structural error that aborts the transform and
propagates out of the colorize stage as a raised `ValueError`; but
`fix_names_and_package` (`safe_fix_3mf_names`) wraps its whole body in
a catch-all handler, so no error — structural errors included — ever
propagates to its caller: the function always returns normally, and
whenever its body raises, the archive on disk is left untouched. -/
theorem error_handling_boundaries (root : XElem) (mode : Text) (file : Option Zip)
    (slots : List Text) (ca ec : Bool) (cm : Option Text)
    (colorize : Text → Text → Except Text Text) (e : Text) :
    ((∀ c ∈ root.childrenOf, localHas (lit "resources") c.tagOf = false) →
      add_colors_on_root root mode = .error (lit "<resources> element missing in XML")) ∧
    (∃ d, safe_fix_3mf_names file slots ca ec cm colorize = .ok d) ∧
    (safe_fix_body file slots ca ec cm colorize = .error e →
      safe_fix_3mf_names file slots ca ec cm colorize = .ok file) := by
  refine ⟨?_, ?_, ?_⟩
  · intro hall
    rw [add_colors_on_root]
    have hobj : get_objects_info root = .error (lit "<resources> element missing in XML") := by
      rw [get_objects_info, findResources_none hall]
    rw [hobj]
    rfl
  · rw [safe_fix_3mf_names]
    cases safe_fix_body file slots ca ec cm colorize with
    | ok d => exact ⟨some d, rfl⟩
    | error e0 => exact ⟨file, rfl⟩
  · intro h
    rw [safe_fix_3mf_names, h]

/-- A root element without any resources child. -/
def rootNoResources : XElem :=
  XElem.mk (lit "model") [] [XElem.mk (lit "build") [] []]

theorem error_handling_boundaries_witness :
    (∀ c ∈ rootNoResources.childrenOf, localHas (lit "resources") c.tagOf = false) ∧
    add_colors_on_root rootNoResources (lit "auto") =
      .error (lit "<resources> element missing in XML") ∧
    safe_fix_body none [] true true none (fun c _ => .ok c) = .error (lit "BadZipFile") ∧
    safe_fix_3mf_names none [] true true none (fun c _ => .ok c) = .ok none :=
  ⟨by decide,
    (error_handling_boundaries rootNoResources (lit "auto") none [] true true none
      (fun c _ => .ok c) (lit "BadZipFile")).1 (by decide),
    rfl,
    (error_handling_boundaries rootNoResources (lit "auto") none [] true true none
      (fun c _ => .ok c) (lit "BadZipFile")).2.2 rfl⟩

/-- The archive used to exhibit the colorize-failure data loss: a
single model entry holding the two-object document `cw3`. -/
def zipC1 : Zip := [(lit "3D/3dmodel.model", cw3)]

/-- A colorize stage that raises, as `add_colors_to_xml_string` does
on an unparseable document or one without a resources element. -/
def colorizeRaise : Text → Text → Except Text Text := fun _ _ => .error (lit "ValueError")

set_option maxRecDepth 40000 in
/-- Claim C1 (code bug): when the colorize stage raises inside
`safe_fix_3mf_names`, the inner handler catches it but `files_data`
was never updated with the name-fixed text, so the model entry written
back is the ORIGINAL bytes — the rename and assembly edits are
discarded along with the color delta, although they differ from the
original. -/
theorem colorize_failure_discards_rename_edits :
    safe_fix_3mf_names (some zipC1) sw3 true true none colorizeRaise = .ok (some zipC1) ∧
    dictGet (zipToDict zipC1) (lit "3D/3dmodel.model") = some cw3 ∧
    fixNamesContent cw3 sw3 true ≠ cw3 := by
  refine ⟨?_, by decide, ?_⟩
  · rfl
  · decide

/-!
## XML well-formedness (claim C7)

A recursive-descent checker for the XML fragment the model documents
use: nested elements with double-quoted attributes (no `<` inside
attribute values, as XML requires), text content without raw `<` or
`&`, and matching end tags.
-/

/-- XML name characters (letters, digits, and common punctuation). -/
def isXmlNameChar (c : Char) : Bool :=
  c.isAlpha || c.isDigit || c = '_' || c = '-' || c = '.' || c = ':'

/-- XML whitespace. -/
def isXmlSpace (c : Char) : Bool :=
  c = ' ' || c = '\t' || c = '\n' || c = '\r'

/-- Parse the attribute list of a start tag, stopping at `/` or `>`.
Each attribute is whitespace, a name, `="`, a value without `"` or
`<`, and a closing quote. -/
def parseAttrs : Nat → Text → Option Text
  | 0, _ => none
  | fuel + 1, s =>
    let ws := s.takeWhile isXmlSpace
    let t := s.dropWhile isXmlSpace
    match t with
    | '/' :: _ => some t
    | '>' :: _ => some t
    | _ =>
      if ws = [] then none
      else
        let nm := t.takeWhile isXmlNameChar
        if nm = [] then none
        else
          match t.drop nm.length with
          | '=' :: '"' :: v =>
            let val := v.takeWhile (fun c => !(c = '"') && !(c = '<'))
            (match v.drop val.length with
              | '"' :: r => parseAttrs fuel r
              | _ => none)
          | _ => none

mutual

/-- Parse one element: start tag, attributes, then either a
self-closing slash or content followed by the matching end tag.
Returns the remaining text. -/
def parseElem : Nat → Text → Option Text
  | 0, _ => none
  | fuel + 1, '<' :: rest =>
    let nm := rest.takeWhile isXmlNameChar
    if nm = [] then none
    else
      match parseAttrs ((rest.drop nm.length).length + 1) (rest.drop nm.length) with
      | none => none
      | some t =>
        match t with
        | '/' :: '>' :: r => some r
        | '>' :: r =>
          (match parseContent fuel r with
            | none => none
            | some r2 =>
              match r2 with
              | '<' :: '/' :: r3 =>
                if nm.isPrefixOf r3 then
                  match (r3.drop nm.length).dropWhile isXmlSpace with
                  | '>' :: r5 => some r5
                  | _ => none
                else none
              | _ => none)
        | _ => none
  | _ + 1, _ => none

/-- Parse element content (text and child elements) up to an end tag,
which is left unconsumed. -/
def parseContent : Nat → Text → Option Text
  | 0, _ => none
  | _ + 1, [] => none
  | _ + 1, '<' :: '/' :: r => some ('<' :: '/' :: r)
  | fuel + 1, '<' :: r =>
    (match parseElem fuel ('<' :: r) with
      | none => none
      | some r2 => parseContent fuel r2)
  | fuel + 1, c :: cs =>
    if c = '&' then none else parseContent fuel cs

end

/-- Whole-document well-formedness: optional leading whitespace, one
root element, optional trailing whitespace. -/
def wellFormedXml (s : Text) : Bool :=
  match parseElem (3 * s.length + 8) (s.dropWhile isXmlSpace) with
  | some r => (r.dropWhile isXmlSpace).isEmpty
  | none => false

/-- The well-formed input document exhibiting the escaping bug. -/
def c7Input : Text := lit "<model><resources><object id=\"1\" ></object></resources></model>"

/-- A slot name containing a double quote, which the rename splices
into the attribute unescaped. -/
def c7Slots : List Text := [lit "x\"y"]

set_option maxRecDepth 40000 in
/-- Claim C7 (code bug): the name-fix pass splices slot names into the
`name` attribute without escaping, so a well-formed input document is
rewritten into text that is not well-formed XML whenever a slot name
contains a double quote — the subsequent parse stage of the pipeline
then fails on it. -/
theorem unescaped_rename_breaks_wellformedness :
    wellFormedXml c7Input = true ∧
    wellFormedXml (fixNamesContent c7Input c7Slots true) = false := by
  constructor
  · decide
  · decide
